import Mathlib

/-!
ZenOS console: shallow embedding of `kernel.c`

Conventions of the embedding.

* A C `char` is represented by its value as an `Int` (the value the C comparisons
  see after integer promotion).  Plain `char` is signed on the i386 target, so a
  well-typed character lies in `-128 .. 127`; theorems that need this say so with
  `CharRange`.
* A `char*` is the finite memory region that follows the pointer, a `List Int`.
  A read past the end of the region yields `0`.
* `int` is 32-bit; `+`, `-`, `*` and unary minus wrap (`wrap32`).  The quotient
  `INT_MIN / -1` is a divide error on the target: the evaluator then yields `none`.
* The terminal is written only through `terminal_putchar`, `terminal_backspace` and
  `terminal_initialize`; the shell functions never read it back.  Their effect is the
  ordered list of those calls (`TermCall`).
* `keyboard_read` is the external blocking read; the key stream is a `List Int`.
* The terminal globals are the record `Terminal`.  The memory at `terminal_buffer` is a
  function from the cell index to the 16-bit cell; the 80x25 grid is the cells
  `0 .. 1999`, and a store at a larger index lands in the memory that follows the grid.
  `run_calls` applies a list of recorded terminal calls to a `Terminal`.
-/

namespace ZenOS

/-! ## Characters, strings, machine integers -/

/-- One call on the terminal made by the shell code: `terminal_putchar(c)`,
`terminal_backspace()`, or the re-initialization `terminal_initialize()` (constructor
`init`). -/
inductive TermCall where
  | putchar (c : Int)
  | backspace
  | init
  deriving DecidableEq, Repr

/-- The characters of a text, as C character values. -/
def chars (s : String) : List Int := s.toList.map (fun c => (c.toNat : Int))

/-- A C string literal: the characters followed by the terminating NUL. -/
def lit (s : String) : List Int := chars s ++ [0]

/-- Read of `s[i]`; a read past the end of the region yields 0. -/
def charAt (s : List Int) (i : Nat) : Int := s.getD i 0

/-- Well-typed buffer: every element is a (signed, 8-bit) `char` value. -/
def CharRange (s : List Int) : Prop := ∀ c ∈ s, -128 ≤ c ∧ c ≤ 127

/-- The line held by a buffer: the characters before the first NUL. -/
def cline (s : List Int) : List Int := s.takeWhile (fun c => c ≠ 0)

/-- Conversion `(unsigned char)c`. -/
def uchar (c : Int) : Int := c % 256

/-- Reduction of an exact integer to the 32-bit two's-complement `int`. -/
def wrap32 (x : Int) : Int := (x + 2147483648) % 4294967296 - 2147483648

/-- Subtraction on `size_t` (32-bit, wrapping), for operands below `2^32`. -/
def size_sub (a b : Nat) : Nat := (a + 4294967296 - b) % 4294967296

/-- Function `strlen`, kernel.c 45-49: `while (str[len]) len++`. -/
def strlen : List Int → Nat
  | [] => 0
  | c :: rest => if c ≠ 0 then strlen rest + 1 else 0

/-- Function `strcmp`, kernel.c 51-54; both pointers advance together. -/
def strcmp : List Int → List Int → Int
  | [], b => uchar 0 - uchar (charAt b 0)
  | x :: a, b =>
    if x ≠ 0 ∧ x = charAt b 0 then strcmp a b.tail
    else uchar x - uchar (charAt b 0)

/-- Loop of `strncmp`, kernel.c 57-60: `k` iterations remain, the index is `i`. -/
def strncmp_loop (s1 s2 : List Int) : Nat → Nat → Int
  | 0, _ => 0
  | k + 1, i =>
    if charAt s1 i ≠ charAt s2 i ∨ charAt s1 i = 0 ∨ charAt s2 i = 0 then
      uchar (charAt s1 i) - uchar (charAt s2 i)
    else strncmp_loop s1 s2 k (i + 1)

/-- Function `strncmp`, kernel.c 56-62. -/
def strncmp (s1 s2 : List Int) (n : Nat) : Int := strncmp_loop s1 s2 n 0

/-! ## Terminal output -/

/-- Function `terminal_writestring`, kernel.c 119-122: one `terminal_putchar` per
character before the terminator. -/
def terminal_writestring (data : List Int) : List TermCall :=
  (List.range (strlen data)).map (fun i => TermCall.putchar (charAt data i))

/-! ## Integer / string conversion -/

/-- First loop of `int_to_string`, kernel.c 156-159: digits of `value`, least
significant first, appended to `buffer`. -/
def int_to_string_digits (value : Int) (buffer : List Int) : List Int :=
  if 0 < value then int_to_string_digits (value / 10) (buffer ++ [48 + value % 10])
  else buffer
termination_by value.toNat
decreasing_by omega

/-- Second loop of `int_to_string`, kernel.c 164-166: `str[j++] = buffer[--i]`. -/
def int_to_string_copy (buffer : List Int) : Nat → List Int → List Int
  | 0, str => str
  | i + 1, str => int_to_string_copy buffer i (str ++ [charAt buffer i])

/-- Function `int_to_string`, kernel.c 140-169; the result is what is stored in `str`,
terminator included. -/
def int_to_string (value : Int) : List Int :=
  if value = 0 then [48, 0]
  else
    let negative : Bool := decide (value < 0)
    let value1 := if negative then wrap32 (-value) else value
    let buffer := int_to_string_digits value1 []
    let buffer1 := if negative then buffer ++ [45] else buffer
    int_to_string_copy buffer1 buffer1.length [] ++ [0]

/-- Loop `while (input[i] == ' ') i++` (kernel.c 191, 195, 199) walking the memory at
`input + i`. -/
def skip_spaces_from : List Int → Nat → Nat
  | [], i => i
  | c :: rest, i => if c = 32 then skip_spaces_from rest (i + 1) else i

/-- Loop `while (input[i] == ' ') i++` started at index `i`; the result is the new `i`. -/
def skip_spaces (input : List Int) (i : Nat) : Nat := skip_spaces_from (input.drop i) i

/-- Digit loop of `string_to_int`, kernel.c 180-183, walking the memory at
`str + *index`. -/
def string_to_int_digits : List Int → Nat → Int → Int × Nat
  | [], index, result => (result, index)
  | c :: rest, index, result =>
    if 48 ≤ c ∧ c ≤ 57 then
      string_to_int_digits rest (index + 1) (wrap32 (result * 10 + (c - 48)))
    else (result, index)

/-- Function `string_to_int`, kernel.c 171-186: the returned value and the updated
`*index`. -/
def string_to_int (str : List Int) (index : Nat) : Int × Nat :=
  let negative : Bool := decide (charAt str index = 45)
  let index1 := if negative then index + 1 else index
  let r := string_to_int_digits (str.drop index1) index1 0
  (if negative then wrap32 (-r.1) else r.1, r.2)

/-! ## Expression evaluator -/

/-- First operand of `calculate_expression`, kernel.c 189-193: value `a` and the index
after it. -/
def calc_first (input : List Int) : Int × Nat :=
  string_to_int input (skip_spaces input 5)

/-- Index of the operator character, kernel.c 195. -/
def calc_op_index (input : List Int) : Nat := skip_spaces input (calc_first input).2

/-- Operator character `op = input[i++]`, kernel.c 197. -/
def calc_op (input : List Int) : Int := charAt input (calc_op_index input)

/-- Second operand of `calculate_expression`, kernel.c 199-201. -/
def calc_second (input : List Int) : Int × Nat :=
  string_to_int input (skip_spaces input (calc_op_index input + 1))

/-- Tail of `calculate_expression`, kernel.c 221-226: format and print the result. -/
def calc_print (result : Int) : List TermCall :=
  terminal_writestring (lit "Result: ") ++ terminal_writestring (int_to_string result)
    ++ terminal_writestring (lit "\n")

/-- The `switch (op)` of `calculate_expression`, kernel.c 205-226. `none` is the
divide error of `INT_MIN / -1`. -/
def calc_switch (a op b : Int) : Option (List TermCall) :=
  if op = 43 then some (calc_print (wrap32 (a + b)))
  else if op = 45 then some (calc_print (wrap32 (a - b)))
  else if op = 42 then some (calc_print (wrap32 (a * b)))
  else if op = 47 then
    if b = 0 then some (terminal_writestring (lit "Error: Division by zero\n"))
    else if a = -2147483648 ∧ b = -1 then none
    else some (calc_print (Int.tdiv a b))
  else some (terminal_writestring (lit "Invalid operator. Use + - * /\n"))

/-- Function `calculate_expression`, kernel.c 188-227. -/
def calculate_expression (input : List Int) : Option (List TermCall) :=
  calc_switch (calc_first input).1 (calc_op input) (calc_second input).1

/-! ## Line editor -/

/-- Local state of `terminal_readstring`: the caller's array, `length`, and the
record of terminal calls and of the array indices stored to, in order. -/
structure ReadState where
  buffer : List Int
  length : Nat
  calls : List TermCall
  stores : List Nat
  deriving DecidableEq, Repr

/-- How a run of `terminal_readstring` on a finite key stream ends: it returned,
leaving `rest` unread, or every key is consumed and it is blocked in
`keyboard_read`. -/
inductive ReadOutcome where
  | done (st : ReadState) (rest : List Int)
  | blocked (st : ReadState)
  deriving DecidableEq, Repr

/-- Loop of `terminal_readstring`, kernel.c 234-249. -/
def terminal_readstring_loop (max_length : Nat) : List Int → ReadState → ReadOutcome
  | [], st =>
    if st.length < size_sub max_length 1 then ReadOutcome.blocked st
    else ReadOutcome.done st []
  | c :: keys, st =>
    if st.length < size_sub max_length 1 then
      if c = 10 then
        ReadOutcome.done { st with calls := st.calls ++ [TermCall.putchar 10] } keys
      else if c = 8 then
        if 0 < st.length then
          terminal_readstring_loop max_length keys
            { st with length := st.length - 1, calls := st.calls ++ [TermCall.backspace] }
        else terminal_readstring_loop max_length keys st
      else if 32 ≤ c then
        terminal_readstring_loop max_length keys
          { buffer := st.buffer.set st.length c, length := st.length + 1,
            calls := st.calls ++ [TermCall.putchar c], stores := st.stores ++ [st.length] }
      else terminal_readstring_loop max_length keys st
    else ReadOutcome.done st (c :: keys)

/-- Function `terminal_readstring`, kernel.c 231-252, on the key stream `keys`. -/
def terminal_readstring (keys buffer : List Int) (max_length : Nat) : ReadOutcome :=
  match terminal_readstring_loop max_length keys
      { buffer := buffer, length := 0, calls := [], stores := [] } with
  | ReadOutcome.done st rest =>
    ReadOutcome.done
      { st with buffer := st.buffer.set st.length 0, stores := st.stores ++ [st.length] } rest
  | ReadOutcome.blocked st => ReadOutcome.blocked st

/-! ## Command dispatcher -/

/-- The branches of `handle_input`. -/
inductive Handler where
  | logo
  | calc
  | clear
  | help
  | unknown
  deriving DecidableEq, Repr

/-- The `if` / `else if` chain of `handle_input`, kernel.c 258, 295, 299, 303, 311. -/
def handle_input_branch (input : List Int) : Handler :=
  if strcmp input (lit "!ZenOS") = 0 then Handler.logo
  else if strncmp input (lit "!calc") 5 = 0 then Handler.calc
  else if strcmp input (lit "!clear") = 0 then Handler.clear
  else if strcmp input (lit "!help") = 0 then Handler.help
  else Handler.unknown

/-- The string literals written by the `!ZenOS` branch, kernel.c 259-293. -/
def logo_lines : List (List Int) := [
    lit "                              -=====+=---::. :%@%##%@%+.            \n",
    lit "                             +@@@@%*######%%%%#+++++**#%+           \n",
    lit "                            :@@@@@%++++++++++++*%%%%#+++#%=         \n",
    lit "                            *@@@@@%++++++++++#%@@**#@%*++*%#.       \n",
    lit "           =*=            :=@@@@@@%+++++++++@@#*++++*%@#+++#%=      \n",
    lit "        .*@@@@@+-     :+#@@@@@@@@@%+++++++++%@*+++++++*%%*++*@%:    \n",
    lit "        #@@@@@@@@@#+#@@@@@@@@@@@@@%+++++++*##@@+++++++++*%#+++#@:   \n",
    lit "         %@@@@@@@@@@@@@@@@@@@@@@@@%====++*@@#%@#+++++++++++++++*@.  \n",
    lit "         .@@@@@@@@@@@@@@@@@@@@@@@@%======*@@+*@@++++++++++++++++%%  \n",
    lit "          =@@@@@@@@@@@@@@@@@@@@@@@%======%@@*+%@*+++++++++++++++*@- \n",
    lit "          -@@@@@@@@@@@@@@@@@@@@@@@%====*%@%@%=#@%++++++++++++++++%# \n",
    lit "          #@@@@@@@@@@@@@@@@@@@@@@@%*#%%*#@#%@++@@+=++++++++++++++#@ \n",
    lit "         +@@@@@@@@@@@@@@@@@@@@@@@@@@#:.=@%#%@+=#@+==+++++++++++++*@.\n",
    lit "      .-#@@@@@@@@@@@@@@@@@@@@@@@@@@@@@@%%%%@%==+@#===++++++++++++#% \n",
    lit " :+#%@@@@@@@@@@@@@@@@@@@@@@@@@%%@@@++*#####*====@%====++++++++++*@# \n",
    lit "-@@@@@@@@@@@@@@@@@@@@@@@@@@@@#: -@@%=============%%=====++++++++*@* \n",
    lit "+@@@@@@@@@@@@@@@@@@@@@@@@@@@#   -@@%=============%@=====++++++++*@: \n",
    lit "*@@@@@@@@@@@@@@@@@@@@@@@@@@@=   -@@%======*%+====%@+====+++++++++#@:\n",
    lit "*@@@@@@@@@@@@@@@@@@@@@@@@@@@*   -@@%======+@@====#@=====++++++++++@%\n",
    lit "=@@@@@@@@@@@@@@@@@@@@@@@@@@@@+  -@@%=======%@*===%@=====++++++++++@*\n",
    lit " :-+#%@@@@@@@@@@@@@@@@@@@@@@@@@##@@%=======*@%==+@%====++++++++++%@-\n",
    lit "      .-%@@@@@@@@@@@@@@@@@@@@@@@@@%=======*@%==*@*====++++++++*@%:  \n",
    lit "         *@@@@@@@@@@@@@@@@@@@@@@@@%=======*@%=+@%+===++++++++@@-    \n",
    lit "          #@@@@@@@@@@@@@@@@@@@@@@@%=======*@@#%@*===+++++++++@@.    \n",
    lit "          -@@@@@@@@@@@@@@@@@@@@@@@%=======*@@@@#==+++++++++++#@+    \n",
    lit "          :@@@@@@@@@@@@@@@@@@@@@@@%=======*@@@@*=+++++++++++++@@    \n",
    lit "          %@@@@@@@@@@@@@@@@@@@@@@@%=======#@#*@@*+++++++++++++#@-   \n",
    lit "         #@@@@@@@@@@@@@@@@@@@@@@@@%=======#@# *@@+++++++++**++#@-   \n",
    lit "        *@@@@@@@@@@#%@@@@@@@@@@@@@%+++++++*@#  #@@%%@@%%#*#%*#@*    \n",
    lit "        :#@@@@@@*-   :=*@@@@@@@@@@%++++++++@@#%%##**+***#@@@@%=     \n",
    lit "          :*%+:          :-*@@@@@@%++++++++%@*+++++++++++*@+        \n",
    lit "                            #@@@@@%++++++++*@@*+***+++++++@*        \n",
    lit "                            -@@@@@%+++++++++*@@@@@@++++++#@=:.      \n",
    lit "                             *@@@@@*++++++++++##%%*+++++#@@@%=      \n",
    lit "                              =+++#%@%##*************##%@%*-        \n"
  ]

/-- The bodies of the branches of `handle_input`, kernel.c 259-313. -/
def handle_input_body : Handler → List Int → Option (List TermCall)
  | Handler.logo, _ => some ((logo_lines.map terminal_writestring).flatten)
  | Handler.calc, input => calculate_expression input
  | Handler.clear, _ => some [TermCall.init]
  | Handler.help, _ =>
    some (terminal_writestring (lit "Available commands:\n")
      ++ terminal_writestring (lit "!ZenOS  - Display ZenOS logo\n")
      ++ terminal_writestring (lit "!calc   - Simple calculator\n")
      ++ terminal_writestring (lit "!clear  - Clear screen\n")
      ++ terminal_writestring (lit "!help   - Show commands\n"))
  | Handler.unknown, _ => some (terminal_writestring (lit "Unknown command. Type !help\n"))

/-- Function `handle_input`, kernel.c 256-315. -/
def handle_input (input : List Int) : Option (List TermCall) :=
  handle_input_body (handle_input_branch input) input

/-! ## Specification-side notions -/

/-- Decimal digits of a natural number, most significant first, without leading
zero; the single digit 0 for zero. -/
def decDigits (n : Nat) : List Nat := if n = 0 then [0] else (Nat.digits 10 n).reverse

/-- Canonical decimal text of a natural number. -/
def decNat (n : Nat) : List Int := (decDigits n).map (fun (d : Nat) => 48 + (d : Int))

/-- Canonical decimal text of an integer, with a leading `-` for negatives. -/
def dec (v : Int) : List Int := if v < 0 then 45 :: decNat v.natAbs else decNat v.natAbs

/-- Exact (unbounded) result of `a op b` for the operator characters `+`, `-`, `*`. -/
def exact_result (op a b : Int) : Int :=
  if op = 43 then a + b else if op = 45 then a - b else a * b

/-- The command line `!calc A op B` with canonical operands and single spaces. -/
def calc_line (a op b : Int) : List Int := chars "!calc " ++ dec a ++ [32, op, 32] ++ dec b

/-- Quotient of `a` by `b` truncated toward zero: the magnitude is `|a| / |b|` rounded
down, the sign is the sign of the exact quotient. -/
def trunc_quot (a b : Int) : Int :=
  Int.sign a * Int.sign b * ((a.natAbs / b.natAbs : Nat) : Int)

/-- Matching policy of the specification: the three exact matches are checked first,
the `!calc` prefix second, and anything else is unknown. -/
def spec_policy (line : List Int) : Handler :=
  if line = chars "!ZenOS" then Handler.logo
  else if line = chars "!clear" then Handler.clear
  else if line = chars "!help" then Handler.help
  else if line.take 5 = chars "!calc" then Handler.calc
  else Handler.unknown

/-- Editing rule of the specification for one key: a backspace removes the last
character (none when the line is empty), a code `≥ space` is appended, any other
control code is ignored. -/
def edit_key (line : List Int) (c : Int) : List Int :=
  if c = 8 then line.dropLast else if 32 ≤ c then line ++ [c] else line

/-- The line obtained from a key sequence by the editing rules. -/
def edited_line (keys : List Int) : List Int := keys.foldl edit_key []

/-- The line returned by a run of `terminal_readstring`: the C string left in the
caller's array; `none` while the call is still blocked. -/
def returned_line : ReadOutcome → Option (List Int)
  | ReadOutcome.done st _ => some (cline st.buffer)
  | ReadOutcome.blocked _ => none

/-- The keys left in the keyboard stream when `terminal_readstring` returns. -/
def unread_keys : ReadOutcome → Option (List Int)
  | ReadOutcome.done _ rest => some rest
  | ReadOutcome.blocked _ => none

/-- The local state at the end of a run (at the return, or at the blocked read). -/
def final_state : ReadOutcome → ReadState
  | ReadOutcome.done st _ => st
  | ReadOutcome.blocked st => st

/-- Whether the run returned. -/
def has_returned : ReadOutcome → Bool
  | ReadOutcome.done _ _ => true
  | ReadOutcome.blocked _ => false

/-! ## Terminal state

The globals `terminal_row`, `terminal_column`, `terminal_color` and the cell memory at
`terminal_buffer` (16-bit cells, indexed from the pointer; the 80x25 grid is the cells
`0 .. 1999`, cell `(row, column)` at index `row * 80 + column`). -/

/-- Constant `VGA_WIDTH`, kernel.c 32. -/
def VGA_WIDTH : Nat := 80

/-- Constant `VGA_HEIGHT`, kernel.c 33. -/
def VGA_HEIGHT : Nat := 25

/-- Enumerator `VGA_COLOR_BLACK`, kernel.c 14. -/
def VGA_COLOR_BLACK : Nat := 0

/-- Enumerator `VGA_COLOR_LIGHT_GREY`, kernel.c 21. -/
def VGA_COLOR_LIGHT_GREY : Nat := 7

/-- The terminal globals, kernel.c 8-11. -/
structure Terminal where
  row : Nat
  column : Nat
  color : Nat
  buffer : Nat → Nat

/-- Function `vga_entry_color`, kernel.c 37-39 (result is a `uint8_t`). -/
def vga_entry_color (fg bg : Nat) : Nat := (fg ||| (bg <<< 4)) % 256

/-- Function `vga_entry`, kernel.c 41-43 (result is a `uint16_t`). -/
def vga_entry (uc color : Nat) : Nat := (uc ||| (color <<< 8)) % 65536

/-- Function `terminal_putentryat`, kernel.c 64-66; the `char` argument is converted to
`unsigned char` at the call of `vga_entry`. -/
def terminal_putentryat (t : Terminal) (c : Int) (color x y : Nat) : Terminal :=
  { t with buffer :=
      Function.update t.buffer (y * VGA_WIDTH + x) (vga_entry (uchar c).toNat color) }

/-- Function `terminal_initialize`, kernel.c 68-77. -/
def terminal_initialize (t : Terminal) : Terminal :=
  (List.range VGA_HEIGHT).foldl
    (fun t1 y =>
      (List.range VGA_WIDTH).foldl (fun t2 x => terminal_putentryat t2 32 t2.color x y) t1)
    { row := 0, column := 0,
      color := vga_entry_color VGA_COLOR_LIGHT_GREY VGA_COLOR_BLACK, buffer := t.buffer }

/-- Function `terminal_scroll`, kernel.c 79-89. -/
def terminal_scroll (t : Terminal) : Terminal :=
  let t1 := (List.range' 1 (VGA_HEIGHT - 1)).foldl
    (fun t2 y =>
      (List.range VGA_WIDTH).foldl
        (fun t3 x =>
          { t3 with
            buffer := Function.update t3.buffer ((y - 1) * VGA_WIDTH + x)
                        (t3.buffer (y * VGA_WIDTH + x)) })
        t2)
    t
  let t4 := (List.range VGA_WIDTH).foldl
    (fun t5 x => terminal_putentryat t5 32 t5.color x (VGA_HEIGHT - 1)) t1
  { t4 with row := VGA_HEIGHT - 1 }

/-- Function `terminal_hidecursor`, kernel.c 91-93. -/
def terminal_hidecursor (t : Terminal) : Terminal :=
  terminal_putentryat t 32 t.color t.column t.row

/-- Function `terminal_showcursor`, kernel.c 95-97. -/
def terminal_showcursor (t : Terminal) : Terminal :=
  terminal_putentryat t 95 t.color t.column t.row

/-- The statements `terminal_column = 0; if (++terminal_row == VGA_HEIGHT)
terminal_scroll();` that occur twice in `terminal_putchar`, kernel.c 103-105 and
108-110. -/
def terminal_nextline (t : Terminal) : Terminal :=
  let t1 : Terminal := { t with column := 0, row := t.row + 1 }
  if t1.row = VGA_HEIGHT then terminal_scroll t1 else t1

/-- Function `terminal_putchar`, kernel.c 99-117. -/
def terminal_putchar (t : Terminal) (c : Int) : Terminal :=
  let t1 := terminal_hidecursor t
  let t2 :=
    if c = 10 then terminal_nextline t1
    else
      let t3 := if t1.column ≥ VGA_WIDTH then terminal_nextline t1 else t1
      let t4 := terminal_putentryat t3 c t3.color t3.column t3.row
      { t4 with column := t4.column + 1 }
  terminal_showcursor t2

/-- Function `terminal_backspace`, kernel.c 124-136. -/
def terminal_backspace (t : Terminal) : Terminal :=
  let t1 := terminal_hidecursor t
  let t2 : Terminal :=
    if t1.column > 0 then { t1 with column := t1.column - 1 }
    else if t1.row > 0 then { t1 with row := t1.row - 1, column := VGA_WIDTH - 1 }
    else t1
  let t3 := terminal_putentryat t2 32 t2.color t2.column t2.row
  terminal_showcursor t3

/-- Effect of one recorded terminal call on the terminal state. -/
def terminal_call (t : Terminal) : TermCall → Terminal
  | TermCall.putchar c => terminal_putchar t c
  | TermCall.backspace => terminal_backspace t
  | TermCall.init => terminal_initialize t

/-- Effect of a sequence of terminal calls, in order. -/
def run_calls (t : Terminal) (calls : List TermCall) : Terminal :=
  calls.foldl terminal_call t

/-- Function `handle_input` run on a terminal state: the state it leaves; `none` when
the evaluator faults. -/
def handle_input_on (t : Terminal) (input : List Int) : Option Terminal :=
  (handle_input input).map (run_calls t)

/-- The cell of the grid at `(r, x)`: the memory cell `terminal_buffer[r * VGA_WIDTH + x]`. -/
def cell_at (t : Terminal) (r x : Nat) : Nat := t.buffer (r * VGA_WIDTH + x)

/-- The character code held by a cell: its low byte. -/
def cell_char (v : Nat) : Nat := v % 256

/-- No cell of the 80x25 grid holds the character `_` (the cursor glyph). -/
def no_glyph (buffer : Nat → Nat) : Prop :=
  ∀ i, i < 2000 → cell_char (buffer i) ≠ 95

/-- No cell of the 80x25 grid other than the memory cell under the cursor holds the
character `_`. -/
def glyph_only_at_cursor (t : Terminal) : Prop :=
  ∀ i, i < 2000 → i ≠ t.row * 80 + t.column → cell_char (t.buffer i) ≠ 95

/-- The memory cell under the cursor holds the cursor glyph `_`. -/
def cursor_shown (t : Terminal) : Prop :=
  cell_char (t.buffer (t.row * 80 + t.column)) = 95

/-! # Theorems -/

/-! ## Lemmas on strings and output -/

theorem wrap32_id (x : Int) (h1 : -2147483648 ≤ x) (h2 : x < 2147483648) : wrap32 x = x := by
  unfold wrap32
  omega

theorem charAt_append_length (pre suf : List Int) :
    charAt (pre ++ suf) pre.length = charAt suf 0 := by
  unfold charAt
  rw [List.getD_append_right _ _ _ _ (le_refl _)]
  simp

theorem charAt_cons_zero (c : Int) (s : List Int) : charAt (c :: s) 0 = c := by
  simp [charAt]

theorem skip_spaces_append (pre suf : List Int) :
    skip_spaces (pre ++ suf) pre.length = skip_spaces_from suf pre.length := by
  unfold skip_spaces
  rw [List.drop_left]

theorem strlen_cstr (s rest : List Int) (h : ∀ c ∈ s, c ≠ 0) :
    strlen (s ++ 0 :: rest) = s.length := by
  induction s with
  | nil => simp [strlen]
  | cons x xs ih =>
    have hx : x ≠ 0 := h x (List.mem_cons_self _ _)
    have hxs : ∀ c ∈ xs, c ≠ 0 := fun c hc => h c (List.mem_cons_of_mem _ hc)
    simp [strlen, hx, ih hxs]

theorem map_range_charAt (g : Int → TermCall) (s t : List Int) :
    (List.range s.length).map (fun i => g (charAt (s ++ t) i)) = s.map g := by
  induction s with
  | nil => simp
  | cons x xs ih =>
    rw [List.length_cons, List.range_succ_eq_map, List.map_cons, List.map_map]
    simp only [List.map_cons, List.cons_append]
    rw [← ih]
    refine congrArg₂ List.cons (by simp [charAt]) ?_
    apply List.map_congr_left
    intro i _
    simp [charAt]

theorem terminal_writestring_cstr (s rest : List Int) (h : ∀ c ∈ s, c ≠ 0) :
    terminal_writestring (s ++ 0 :: rest) = s.map TermCall.putchar := by
  unfold terminal_writestring
  rw [strlen_cstr s rest h]
  exact map_range_charAt TermCall.putchar s (0 :: rest)

/-! ## Lemmas on decimal text -/

theorem foldl_digits_ge (bs : List Nat) (acc : Nat) :
    acc ≤ bs.foldl (fun a d => a * 10 + d) acc := by
  induction bs generalizing acc with
  | nil => simp
  | cons d bs ih =>
    simp only [List.foldl_cons]
    exact le_trans (by omega) (ih (acc * 10 + d))

theorem foldl_decDigits (n : Nat) : (decDigits n).foldl (fun a d => a * 10 + d) 0 = n := by
  unfold decDigits
  split
  · simp_all
  · rw [List.foldl_reverse]
    have h := Nat.ofDigits_digits 10 n
    rw [Nat.ofDigits_eq_foldr] at h
    simp only [Nat.cast_id] at h
    calc List.foldr (fun x y => y * 10 + x) 0 (Nat.digits 10 n)
        = List.foldr (fun x y => x + 10 * y) 0 (Nat.digits 10 n) := by
          congr 1
          funext x y
          omega
      _ = n := h

theorem decDigits_lt (n : Nat) : ∀ d ∈ decDigits n, d < 10 := by
  intro d hd
  unfold decDigits at hd
  split at hd
  · simp_all
  · exact Nat.digits_lt_base (by norm_num) (List.mem_reverse.mp hd)

theorem decDigits_ne_nil (n : Nat) : decDigits n ≠ [] := by
  unfold decDigits
  split
  · simp
  · rename_i h
    simpa using (Nat.digits_ne_nil_iff_ne_zero.mpr h)

/-- The digit loop of `string_to_int` on a run of digit characters followed by a
non-digit: it accumulates their value and stops right after them. -/
theorem string_to_int_digits_run (bs : List Nat) (suf : List Int) (index acc : Nat)
    (hbs : ∀ d ∈ bs, d < 10)
    (hsuf : ¬ (48 ≤ charAt suf 0 ∧ charAt suf 0 ≤ 57))
    (hfit : bs.foldl (fun a d => a * 10 + d) acc < 2147483648) :
    string_to_int_digits (bs.map (fun (d : Nat) => 48 + (d : Int)) ++ suf) index (acc : Int)
      = (((bs.foldl (fun a d => a * 10 + d) acc : Nat) : Int), index + bs.length) := by
  induction bs generalizing index acc with
  | nil =>
    cases suf with
    | nil => simp [string_to_int_digits]
    | cons c rest =>
      rw [charAt_cons_zero] at hsuf
      simp [string_to_int_digits, hsuf]
  | cons d bs ih =>
    have hd : d < 10 := hbs d (List.mem_cons_self _ _)
    have hbs1 : ∀ e ∈ bs, e < 10 := fun e he => hbs e (List.mem_cons_of_mem _ he)
    simp only [List.foldl_cons] at hfit
    have hge := foldl_digits_ge bs (acc * 10 + d)
    have hcond : (48 : Int) ≤ 48 + (d : Int) ∧ 48 + (d : Int) ≤ 57 := by omega
    have hw : wrap32 ((acc : Int) * 10 + (48 + (d : Int) - 48)) = ((acc * 10 + d : Nat) : Int) := by
      rw [wrap32_id] <;> push_cast <;> omega
    simp only [List.map_cons, List.cons_append, string_to_int_digits, hcond, and_self, if_true, hw,
      List.foldl_cons, List.length_cons, List.append_eq]
    rw [ih (index + 1) (acc * 10 + d) hbs1 hfit]
    simp only [Prod.mk.injEq, true_and]
    omega

theorem decNat_head_digit (n : Nat) :
    48 ≤ charAt (decNat n) 0 ∧ charAt (decNat n) 0 ≤ 57 ∧ decNat n ≠ [] := by
  have hne := decDigits_ne_nil n
  have hlt := decDigits_lt n
  unfold decNat
  cases h : decDigits n with
  | nil => exact absurd h hne
  | cons d ds =>
    have hd : d < 10 := hlt d (by rw [h]; exact List.mem_cons_self _ _)
    simp only [List.map_cons, charAt_cons_zero, ne_eq, reduceCtorEq, not_false_eq_true, and_true]
    omega

theorem decNat_no_nul (n : Nat) : ∀ c ∈ decNat n, c ≠ 0 := by
  intro c hc
  unfold decNat at hc
  rw [List.mem_map] at hc
  obtain ⟨d, _, rfl⟩ := hc
  omega

theorem dec_no_nul (v : Int) : ∀ c ∈ dec v, c ≠ 0 := by
  intro c hc
  unfold dec at hc
  split at hc
  · rcases List.mem_cons.mp hc with h | h
    · omega
    · exact decNat_no_nul _ c h
  · exact decNat_no_nul _ c hc

/-- Parsing the canonical text of a natural number below `2^31`. -/
theorem string_to_int_digits_decNat (n : Nat) (suf : List Int) (index : Nat)
    (hn : n < 2147483648) (hsuf : ¬ (48 ≤ charAt suf 0 ∧ charAt suf 0 ≤ 57)) :
    string_to_int_digits (decNat n ++ suf) index 0 = ((n : Int), index + (decNat n).length) := by
  have h := string_to_int_digits_run (decDigits n) suf index 0 (decDigits_lt n) hsuf
    (by rw [foldl_decDigits]; exact hn)
  rw [foldl_decDigits] at h
  simpa [decNat] using h

theorem dec_head_not_space (v : Int) (suf : List Int) : charAt (dec v ++ suf) 0 ≠ 32 := by
  unfold dec
  split
  · simp [charAt]
  · obtain ⟨h1, _, h3⟩ := decNat_head_digit v.natAbs
    cases h : decNat v.natAbs with
    | nil => exact absurd h h3
    | cons c cs =>
      rw [h, charAt_cons_zero] at h1
      simp only [List.cons_append, charAt_cons_zero]
      omega

/-- Function `string_to_int` reads back the canonical text of any `v` with
`|v| < 2^31`, whatever precedes it, when a non-digit follows. -/
theorem string_to_int_dec (pre suf : List Int) (v : Int)
    (h1 : -2147483648 < v) (h2 : v < 2147483648)
    (hsuf : ¬ (48 ≤ charAt suf 0 ∧ charAt suf 0 ≤ 57)) :
    string_to_int (pre ++ (dec v ++ suf)) pre.length = (v, pre.length + (dec v).length) := by
  unfold string_to_int
  rw [charAt_append_length]
  unfold dec
  by_cases hv : v < 0
  · have hn : v.natAbs < 2147483648 := by omega
    have hsplit : pre ++ 45 :: (decNat v.natAbs ++ suf)
        = (pre ++ [45]) ++ (decNat v.natAbs ++ suf) := by
      simp
    have hlen : (pre ++ [45]).length = pre.length + 1 := by simp
    simp only [hv, if_true, List.cons_append, charAt_cons_zero, decide_True]
    rw [hsplit, ← hlen, List.drop_left, string_to_int_digits_decNat _ _ _ hn hsuf]
    simp only [hlen, List.length_cons, Prod.mk.injEq]
    constructor
    · rw [wrap32_id] <;> omega
    · omega
  · have hn : v.natAbs < 2147483648 := by omega
    obtain ⟨d1, d2, d3⟩ := decNat_head_digit v.natAbs
    have hc : charAt (decNat v.natAbs ++ suf) 0 ≠ 45 := by
      cases h : decNat v.natAbs with
      | nil => exact absurd h d3
      | cons c cs =>
        rw [h, charAt_cons_zero] at d1 d2
        simp only [List.cons_append, charAt_cons_zero]
        omega
    simp only [hv, if_false, hc, decide_False, Bool.false_eq_true]
    rw [List.drop_left, string_to_int_digits_decNat _ _ _ hn hsuf]
    simp only [Prod.mk.injEq, and_true]
    omega

theorem int_to_string_digits_eq (n : Nat) (buffer : List Int) :
    int_to_string_digits (n : Int) buffer
      = buffer ++ (Nat.digits 10 n).map (fun (d : Nat) => 48 + (d : Int)) := by
  induction n using Nat.strong_induction_on generalizing buffer with
  | _ n ih =>
    rw [int_to_string_digits]
    by_cases hn : 0 < n
    · have hpos : (0 : Int) < (n : Int) := by exact_mod_cast hn
      have hdiv : (n : Int) / 10 = ((n / 10 : Nat) : Int) := by push_cast; rfl
      have hmod : (n : Int) % 10 = ((n % 10 : Nat) : Int) := by push_cast; rfl
      rw [if_pos hpos, hdiv, ih (n / 10) (by omega), Nat.digits_def' (by norm_num) hn, hmod]
      simp
    · have h0 : n = 0 := by omega
      subst h0
      simp

theorem int_to_string_copy_eq (buffer : List Int) (i : Nat) (str : List Int)
    (hi : i ≤ buffer.length) :
    int_to_string_copy buffer i str = str ++ (buffer.take i).reverse := by
  induction i generalizing str with
  | zero => simp [int_to_string_copy]
  | succ i ih =>
    have hlt : i < buffer.length := by omega
    rw [int_to_string_copy, ih _ (by omega), ← List.take_concat_get buffer i hlt]
    simp only [charAt, List.getD_eq_getElem _ _ hlt, List.concat_eq_append, List.reverse_append,
      List.reverse_cons, List.reverse_nil, List.nil_append, List.append_assoc]

theorem int_to_string_copy_all (buffer : List Int) :
    int_to_string_copy buffer buffer.length [] = buffer.reverse := by
  rw [int_to_string_copy_eq _ _ _ (le_refl _)]
  simp

/-- Function `int_to_string` produces the canonical decimal text, then the terminator,
for every value with `|v| < 2^31`. -/
theorem int_to_string_dec (v : Int) (h1 : -2147483648 < v) (h2 : v < 2147483648) :
    int_to_string v = dec v ++ [0] := by
  unfold int_to_string dec decNat decDigits
  by_cases h0 : v = 0
  · subst h0
    simp
  · have hne : v.natAbs ≠ 0 := by omega
    by_cases hv : v < 0
    · have hw : wrap32 (-v) = ((v.natAbs : Nat) : Int) := by
        rw [wrap32_id] <;> omega
      simp only [h0, hv, if_false, if_true, decide_True, hw, int_to_string_digits_eq, hne,
        List.nil_append, int_to_string_copy_all]
      simp
    · obtain ⟨n, rfl⟩ := Int.eq_ofNat_of_zero_le (by omega : 0 ≤ v)
      simp only [h0, hv, if_false, decide_False, Bool.false_eq_true, hne,
        int_to_string_digits_eq, int_to_string_copy_all]
      simp

/-! ## Lemmas on the expression evaluator -/

theorem skip_spaces_from_stop (s : List Int) (i : Nat) (h : charAt s 0 ≠ 32) :
    skip_spaces_from s i = i := by
  cases s with
  | nil => rfl
  | cons c cs =>
    rw [charAt_cons_zero] at h
    simp [skip_spaces_from, h]

theorem skip_spaces_one (s : List Int) (i : Nat) (h : charAt s 0 ≠ 32) :
    skip_spaces_from (32 :: s) i = i + 1 := by
  simp [skip_spaces_from, skip_spaces_from_stop s (i + 1) h]

theorem skip_spaces_at (pre suf : List Int) (n : Nat) (h : pre.length = n) :
    skip_spaces (pre ++ suf) n = skip_spaces_from suf n := by
  subst h
  exact skip_spaces_append pre suf

theorem charAt_at (pre suf : List Int) (n : Nat) (h : pre.length = n) :
    charAt (pre ++ suf) n = charAt suf 0 := by
  subst h
  exact charAt_append_length pre suf

theorem string_to_int_dec_at (pre suf : List Int) (v : Int) (n : Nat) (h : pre.length = n)
    (h1 : -2147483648 < v) (h2 : v < 2147483648)
    (hsuf : ¬ (48 ≤ charAt suf 0 ∧ charAt suf 0 ≤ 57)) :
    string_to_int (pre ++ (dec v ++ suf)) n = (v, n + (dec v).length) := by
  subst h
  exact string_to_int_dec pre suf v h1 h2 hsuf

theorem chars_calc : chars "!calc " = [33, 99, 97, 108, 99, 32] := by decide

/-- On a well-formed line `!calc A op B`, the evaluator reads `A`, `op` and `B` and
enters its `switch` with them.  The memory after the terminator is arbitrary. -/
theorem calculate_expression_line (a op b : Int) (rest : List Int)
    (ha1 : -2147483648 < a) (ha2 : a < 2147483648)
    (hb1 : -2147483648 < b) (hb2 : b < 2147483648)
    (hop : op = 43 ∨ op = 45 ∨ op = 42 ∨ op = 47) :
    calculate_expression (calc_line a op b ++ 0 :: rest) = calc_switch a op b := by
  have hop32 : op ≠ 32 := by omega
  have hopd : ¬ (48 ≤ op ∧ op ≤ 57) := by omega
  let sb : List Int := dec b ++ 0 :: rest
  let sa : List Int := 32 :: op :: 32 :: sb
  have e0 : calc_line a op b ++ 0 :: rest = [33, 99, 97, 108, 99] ++ (32 :: (dec a ++ sa)) := by
    simp [calc_line, chars_calc, sa, sb]
  have e1 : calc_line a op b ++ 0 :: rest = [33, 99, 97, 108, 99, 32] ++ (dec a ++ sa) := by
    simp [calc_line, chars_calc, sa, sb]
  have e2 : calc_line a op b ++ 0 :: rest
      = ([33, 99, 97, 108, 99, 32] ++ dec a) ++ (32 :: op :: 32 :: sb) := by
    simp [calc_line, chars_calc, sb]
  have e3 : calc_line a op b ++ 0 :: rest
      = ([33, 99, 97, 108, 99, 32] ++ dec a ++ [32]) ++ (op :: 32 :: sb) := by
    simp [calc_line, chars_calc, sb]
  have e4 : calc_line a op b ++ 0 :: rest
      = ([33, 99, 97, 108, 99, 32] ++ dec a ++ [32, op]) ++ (32 :: sb) := by
    simp [calc_line, chars_calc, sb]
  have e5 : calc_line a op b ++ 0 :: rest
      = ([33, 99, 97, 108, 99, 32] ++ dec a ++ [32, op, 32]) ++ (dec b ++ 0 :: rest) := by
    simp [calc_line, chars_calc]
  have hskip1 : skip_spaces (calc_line a op b ++ 0 :: rest) 5 = 6 := by
    rw [e0, skip_spaces_at [33, 99, 97, 108, 99] _ 5 rfl, skip_spaces_one _ _ (dec_head_not_space a sa)]
  have hfirst : calc_first (calc_line a op b ++ 0 :: rest) = (a, 6 + (dec a).length) := by
    unfold calc_first
    rw [hskip1, e1]
    exact string_to_int_dec_at [33, 99, 97, 108, 99, 32] _ a 6 rfl ha1 ha2 (by simp [sa, charAt])
  have hidx : calc_op_index (calc_line a op b ++ 0 :: rest) = 6 + (dec a).length + 1 := by
    unfold calc_op_index
    rw [hfirst]
    show skip_spaces (calc_line a op b ++ 0 :: rest) (6 + (dec a).length) = _
    rw [e2, skip_spaces_at _ _ _ (by simp; omega),
      skip_spaces_one _ _ (by rw [charAt_cons_zero]; exact hop32)]
  have hopc : calc_op (calc_line a op b ++ 0 :: rest) = op := by
    unfold calc_op
    rw [hidx, e3, charAt_at _ _ _ (by simp; omega), charAt_cons_zero]
  have hsecond : (calc_second (calc_line a op b ++ 0 :: rest)).1 = b := by
    unfold calc_second
    rw [hidx]
    have hs : skip_spaces (calc_line a op b ++ 0 :: rest) (6 + (dec a).length + 1 + 1)
        = 6 + (dec a).length + 3 := by
      rw [e4, skip_spaces_at _ _ _ (by simp; omega),
        skip_spaces_one _ _ (dec_head_not_space b (0 :: rest))]
    rw [hs, e5, string_to_int_dec_at _ _ b _ (by simp; omega) hb1 hb2 (by simp [charAt])]
  unfold calculate_expression
  rw [hfirst, hopc, hsecond]

theorem calc_print_dec (v : Int) (h1 : -2147483648 < v) (h2 : v < 2147483648) :
    calc_print v = (chars "Result: " ++ dec v ++ [10]).map TermCall.putchar := by
  unfold calc_print
  rw [int_to_string_dec v h1 h2]
  have hr : terminal_writestring (lit "Result: ") = (chars "Result: ").map TermCall.putchar := by
    decide
  have hn : terminal_writestring (lit "\n") = [TermCall.putchar 10] := by decide
  have hd : terminal_writestring (dec v ++ [0]) = (dec v).map TermCall.putchar :=
    terminal_writestring_cstr (dec v) [] (dec_no_nul v)
  rw [hr, hn, hd]
  simp

/-! ## Lemmas on string comparison -/

theorem cline_nil : cline [] = [] := rfl

theorem cline_cons (x : Int) (s : List Int) :
    cline (x :: s) = if x = 0 then [] else x :: cline s := by
  unfold cline
  by_cases h : x = 0 <;> simp [List.takeWhile_cons, h]

theorem charAt_zero_cline (s : List Int) (h : charAt s 0 = 0) : cline s = [] := by
  cases s with
  | nil => rfl
  | cons x xs =>
    rw [charAt_cons_zero] at h
    simp [cline_cons, h]

theorem charAt_range (s : List Int) (i : Nat) (h : CharRange s) :
    -128 ≤ charAt s i ∧ charAt s i ≤ 127 := by
  unfold charAt
  by_cases hi : i < s.length
  · rw [List.getD_eq_getElem _ _ hi]
    exact h _ (List.getElem_mem _)
  · rw [List.getD_eq_default _ _ (by omega)]
    omega

theorem CharRange_tail (x : Int) (s : List Int) (h : CharRange (x :: s)) : CharRange s :=
  fun c hc => h c (List.mem_cons_of_mem _ hc)

theorem uchar_sub_eq_zero (x y : Int) (hx : -128 ≤ x ∧ x ≤ 127) (hy : -128 ≤ y ∧ y ≤ 127) :
    uchar x - uchar y = 0 ↔ x = y := by
  unfold uchar
  omega

/-- Function `strcmp` returns 0 exactly when the two buffers hold the same line. -/
theorem strcmp_eq_zero_iff (a b : List Int) (ha : CharRange a) (hb : CharRange b) :
    strcmp a b = 0 ↔ cline a = cline b := by
  induction a generalizing b with
  | nil =>
    have hr := charAt_range b 0 hb
    rw [strcmp, uchar_sub_eq_zero 0 _ (by omega) hr, cline_nil]
    cases b with
    | nil => simp [charAt, cline_nil]
    | cons y ys =>
      rw [charAt_cons_zero, cline_cons]
      by_cases hy : y = 0
      · simp [hy]
      · simp [hy, Ne.symm hy]
  | cons x xs ih =>
    have hx : -128 ≤ x ∧ x ≤ 127 := ha x (List.mem_cons_self _ _)
    have hr := charAt_range b 0 hb
    rw [strcmp, cline_cons]
    cases b with
    | nil =>
      have h0 : charAt ([] : List Int) 0 = 0 := rfl
      rw [h0] at hr ⊢
      by_cases hx0 : x = 0
      · simp [hx0, cline_nil]
      · have hne : ¬ (x ≠ 0 ∧ x = 0) := fun h => hx0 h.2
        rw [if_neg hne, uchar_sub_eq_zero x 0 hx (by omega)]
        simp [hx0, cline_nil]
    | cons y ys =>
      rw [charAt_cons_zero] at hr ⊢
      rw [cline_cons y ys]
      by_cases hc : x ≠ 0 ∧ x = y
      · obtain ⟨hx0, rfl⟩ := hc
        simp only [ne_eq, hx0, not_false_eq_true, and_self, if_true, List.tail_cons, if_false,
          List.cons.injEq, true_and]
        exact ih ys (CharRange_tail _ _ ha) (CharRange_tail _ _ hb)
      · rw [if_neg hc, uchar_sub_eq_zero x y hx hr]
        by_cases hx0 : x = 0 <;> by_cases hy0 : y = 0
        · simp [hx0, hy0]
        · subst hx0
          simp [hy0, Ne.symm hy0]
        · subst hy0
          simp [hx0]
        · have hxy : x ≠ y := fun h => hc ⟨hx0, h⟩
          simp [hx0, hy0, hxy]

theorem cline_drop (s : List Int) (i : Nat) :
    cline (s.drop i) = if charAt s i = 0 then [] else charAt s i :: cline (s.drop (i + 1)) := by
  by_cases hi : i < s.length
  · have hc : charAt s i = s[i] := List.getD_eq_getElem _ _ hi
    rw [List.drop_eq_getElem_cons hi, cline_cons, hc]
  · have h1 : s.drop i = [] := List.drop_eq_nil_of_le (by omega)
    have h2 : charAt s i = 0 := List.getD_eq_default _ _ (by omega)
    rw [h1, h2]
    simp [cline_nil]

/-- The loop of `strncmp` returns 0 exactly when the two lines agree on their next `k`
characters. -/
theorem strncmp_loop_eq_zero_iff (s1 s2 : List Int) (k i : Nat)
    (h1 : CharRange s1) (h2 : CharRange s2) :
    strncmp_loop s1 s2 k i = 0
      ↔ (cline (s1.drop i)).take k = (cline (s2.drop i)).take k := by
  induction k generalizing i with
  | zero => simp [strncmp_loop]
  | succ k ih =>
    have r1 := charAt_range s1 i h1
    have r2 := charAt_range s2 i h2
    rw [strncmp_loop, cline_drop s1 i, cline_drop s2 i]
    by_cases hc : charAt s1 i ≠ charAt s2 i ∨ charAt s1 i = 0 ∨ charAt s2 i = 0
    · rw [if_pos hc, uchar_sub_eq_zero _ _ r1 r2]
      by_cases hx : charAt s1 i = 0 <;> by_cases hy : charAt s2 i = 0
      · simp [hx, hy]
      · simp [hx, hy, Ne.symm hy]
      · simp [hx, hy]
      · have hne : charAt s1 i ≠ charAt s2 i := by
          rcases hc with h | h | h
          · exact h
          · exact absurd h hx
          · exact absurd h hy
        simp [hx, hy, hne]
    · rw [if_neg hc]
      have hx : charAt s1 i ≠ 0 := fun h => hc (Or.inr (Or.inl h))
      have hy : charAt s2 i ≠ 0 := fun h => hc (Or.inr (Or.inr h))
      have he : charAt s1 i = charAt s2 i := by
        by_contra h
        exact hc (Or.inl h)
      rw [if_neg hx, if_neg hy, ih (i + 1), he]
      simp

/-- Function `strncmp` returns 0 exactly when the two lines agree on their first `n`
characters. -/
theorem strncmp_eq_zero_iff (s1 s2 : List Int) (n : Nat)
    (h1 : CharRange s1) (h2 : CharRange s2) :
    strncmp s1 s2 n = 0 ↔ (cline s1).take n = (cline s2).take n := by
  have h := strncmp_loop_eq_zero_iff s1 s2 n 0 h1 h2
  simpa [strncmp] using h

theorem CharRange_lit_ZenOS : CharRange (lit "!ZenOS") := by
  intro c hc
  simp [lit, chars] at hc
  omega

theorem CharRange_lit_calc : CharRange (lit "!calc") := by
  intro c hc
  simp [lit, chars] at hc
  omega

theorem CharRange_lit_clear : CharRange (lit "!clear") := by
  intro c hc
  simp [lit, chars] at hc
  omega

theorem CharRange_lit_help : CharRange (lit "!help") := by
  intro c hc
  simp [lit, chars] at hc
  omega

/-- The four tests of `handle_input`, as conditions on the line held by the buffer. -/
theorem handle_input_tests (input : List Int) (h : CharRange input) :
    (strcmp input (lit "!ZenOS") = 0 ↔ cline input = chars "!ZenOS")
    ∧ (strncmp input (lit "!calc") 5 = 0 ↔ (cline input).take 5 = chars "!calc")
    ∧ (strcmp input (lit "!clear") = 0 ↔ cline input = chars "!clear")
    ∧ (strcmp input (lit "!help") = 0 ↔ cline input = chars "!help") := by
  have e1 : cline (lit "!ZenOS") = chars "!ZenOS" := by decide
  have e2 : (cline (lit "!calc")).take 5 = chars "!calc" := by decide
  have e3 : cline (lit "!clear") = chars "!clear" := by decide
  have e4 : cline (lit "!help") = chars "!help" := by decide
  refine ⟨?_, ?_, ?_, ?_⟩
  · rw [strcmp_eq_zero_iff _ _ h CharRange_lit_ZenOS, e1]
  · rw [strncmp_eq_zero_iff _ _ _ h CharRange_lit_calc, e2]
  · rw [strcmp_eq_zero_iff _ _ h CharRange_lit_clear, e3]
  · rw [strcmp_eq_zero_iff _ _ h CharRange_lit_help, e4]

/-! ## Lemmas on the line editor -/

theorem take_set_succ (buf : List Int) (n : Nat) (c : Int) (h : n < buf.length) :
    (buf.set n c).take (n + 1) = buf.take n ++ [c] := by
  have hl : (buf.take n ++ [c]).length = n + 1 := by simp; omega
  have e : buf.set n c = (buf.take n ++ [c]) ++ buf.drop (n + 1) := by
    rw [List.set_eq_take_append_cons_drop, if_pos h]
    simp
  rw [e, ← hl, List.take_left]

theorem dropLast_take (buf : List Int) (n : Nat) (h : n ≤ buf.length) :
    (buf.take n).dropLast = buf.take (n - 1) := by
  rw [List.dropLast_eq_take, List.take_take, List.length_take]
  congr 1
  omega

theorem cline_append_nul (l rest : List Int) (h : ∀ c ∈ l, c ≠ 0) :
    cline (l ++ 0 :: rest) = l := by
  induction l with
  | nil => simp [cline_cons]
  | cons x xs ih =>
    have hx : x ≠ 0 := h x (List.mem_cons_self _ _)
    rw [List.cons_append, cline_cons, if_neg hx, ih (fun c hc => h c (List.mem_cons_of_mem _ hc))]

theorem cline_set_nul (buf : List Int) (n : Nat) (h : n < buf.length)
    (hz : ∀ c ∈ buf.take n, c ≠ 0) : cline (buf.set n 0) = buf.take n := by
  rw [List.set_eq_take_append_cons_drop, if_pos h]
  exact cline_append_nul _ _ hz

theorem edit_key_ge (line : List Int) (c : Int) (h : ∀ x ∈ line, 32 ≤ x) :
    ∀ x ∈ edit_key line c, 32 ≤ x := by
  intro x hx
  unfold edit_key at hx
  split at hx
  · exact h x (List.mem_of_mem_dropLast hx)
  · split at hx
    · rcases List.mem_append.mp hx with h1 | h1
      · exact h x h1
      · simp only [List.mem_singleton] at h1
        omega
    · exact h x hx

theorem foldl_edit_key_ge (keys line : List Int) (h : ∀ x ∈ line, 32 ≤ x) :
    ∀ x ∈ keys.foldl edit_key line, 32 ≤ x := by
  induction keys generalizing line with
  | nil => simpa using h
  | cons c ks ih => exact ih _ (edit_key_ge line c h)

theorem foldl_edit_key_printable (keys line : List Int) (h : ∀ c ∈ keys, 32 ≤ c) :
    keys.foldl edit_key line = line ++ keys := by
  induction keys generalizing line with
  | nil => simp
  | cons c ks ih =>
    have hc : 32 ≤ c := h c (List.mem_cons_self _ _)
    have h8 : c ≠ 8 := by omega
    rw [List.foldl_cons, ih _ (fun x hx => h x (List.mem_cons_of_mem _ hx))]
    simp [edit_key, h8, hc]

/-- Running the loop of `terminal_readstring` over keys that contain no newline and
are all consumed (the line has room before each of them): the array prefix of length
`length` follows the editing rules, and the loop goes on with the remaining keys. -/
theorem readstring_loop_run (max_length : Nat) (ks rest : List Int) (st : ReadState)
    (hnl : ∀ c ∈ ks, c ≠ 10)
    (hroom : ∀ n, n < ks.length →
      ((ks.take n).foldl edit_key (st.buffer.take st.length)).length < size_sub max_length 1)
    (hlen : st.length ≤ st.buffer.length)
    (hcap : size_sub max_length 1 ≤ st.buffer.length) :
    ∃ st1 : ReadState,
      terminal_readstring_loop max_length (ks ++ rest) st
          = terminal_readstring_loop max_length rest st1
      ∧ st1.buffer.length = st.buffer.length
      ∧ st1.length ≤ st1.buffer.length
      ∧ st1.buffer.take st1.length = ks.foldl edit_key (st.buffer.take st.length) := by
  induction ks generalizing st with
  | nil => exact ⟨st, rfl, rfl, hlen, rfl⟩
  | cons c ks ih =>
    have hc10 : c ≠ 10 := hnl c (List.mem_cons_self _ _)
    have hnl1 : ∀ x ∈ ks, x ≠ 10 := fun x hx => hnl x (List.mem_cons_of_mem _ hx)
    have h0 := hroom 0 (by simp)
    simp only [List.take_zero, List.foldl_nil, List.length_take, min_eq_left hlen] at h0
    have hstep : ∀ n, n < ks.length →
        ((ks.take n).foldl edit_key (edit_key (st.buffer.take st.length) c)).length
          < size_sub max_length 1 := by
      intro n hn
      have := hroom (n + 1) (by simp; omega)
      simpa using this
    rw [List.cons_append, terminal_readstring_loop, if_pos h0, if_neg hc10, List.foldl_cons]
    by_cases h8 : c = 8
    · rw [if_pos h8]
      by_cases hpos : 0 < st.length
      · rw [if_pos hpos]
        have he : edit_key (st.buffer.take st.length) c = st.buffer.take (st.length - 1) := by
          rw [edit_key, if_pos h8, dropLast_take _ _ hlen]
        rw [he] at hstep ⊢
        exact ih { st with length := st.length - 1, calls := st.calls ++ [TermCall.backspace] }
          hnl1 hstep (by simp; omega) hcap
      · rw [if_neg hpos]
        have hz : st.length = 0 := by omega
        have he : edit_key (st.buffer.take st.length) c = st.buffer.take st.length := by
          rw [edit_key, if_pos h8, hz]
          rfl
        rw [he] at hstep ⊢
        exact ih st hnl1 hstep hlen hcap
    · rw [if_neg h8]
      by_cases hp : 32 ≤ c
      · rw [if_pos hp]
        have hlt : st.length < st.buffer.length := by omega
        have he : edit_key (st.buffer.take st.length) c
            = (st.buffer.set st.length c).take (st.length + 1) := by
          rw [edit_key, if_neg h8, if_pos hp, take_set_succ _ _ _ hlt]
        rw [he] at hstep ⊢
        obtain ⟨st1, e1, e2, e3, e4⟩ := ih
          { buffer := st.buffer.set st.length c, length := st.length + 1,
            calls := st.calls ++ [TermCall.putchar c], stores := st.stores ++ [st.length] }
          hnl1 hstep (by simp; omega) (by simpa using hcap)
        exact ⟨st1, e1, by simpa using e2, e3, e4⟩
      · rw [if_neg hp]
        have he : edit_key (st.buffer.take st.length) c = st.buffer.take st.length := by
          rw [edit_key, if_neg h8, if_neg hp]
        rw [he] at hstep ⊢
        exact ih st hnl1 hstep hlen hcap

theorem tdiv_eq_trunc_quot (a b : Int) : Int.tdiv a b = trunc_quot a b := by
  unfold trunc_quot
  obtain ⟨m, rfl | rfl⟩ := Int.eq_nat_or_neg a <;> obtain ⟨n, rfl | rfl⟩ := Int.eq_nat_or_neg b <;>
  rcases Nat.eq_zero_or_pos m with rfl | hm <;> rcases Nat.eq_zero_or_pos n with rfl | hn <;>
  simp_all [Int.neg_tdiv, Int.tdiv_neg, Int.sign_eq_one_of_pos, Int.sign_eq_neg_one_of_neg,
    ← Int.ofNat_tdiv]

theorem trunc_quot_bound (a b : Int) : (trunc_quot a b).natAbs ≤ a.natAbs := by
  rw [← tdiv_eq_trunc_quot, Int.natAbs_tdiv]
  exact Nat.div_le_self _ _

theorem decNat_injective (n m : Nat) (h : decNat n = decNat m) : n = m := by
  unfold decNat at h
  have hinj : Function.Injective (fun (d : Nat) => 48 + (d : Int)) := fun x y hxy => by
    simp only at hxy
    omega
  have h1 := List.map_injective_iff.mpr hinj h
  rw [← foldl_decDigits n, ← foldl_decDigits m, h1]

theorem dec_injective (v w : Int) (h : dec v = dec w) : v = w := by
  unfold dec at h
  have hv := decNat_head_digit v.natAbs
  have hw := decNat_head_digit w.natAbs
  by_cases h1 : v < 0 <;> by_cases h2 : w < 0 <;> simp only [h1, h2, if_true, if_false] at h
  · have := decNat_injective _ _ (List.cons.inj h).2
    omega
  · rw [← h, charAt_cons_zero] at hw
    omega
  · rw [h, charAt_cons_zero] at hv
    omega
  · have := decNat_injective _ _ h
    omega

theorem result_text_injective (x y : List Int)
    (h : (chars "Result: " ++ x ++ [10]).map TermCall.putchar
      = (chars "Result: " ++ y ++ [10]).map TermCall.putchar) : x = y := by
  have hinj : Function.Injective TermCall.putchar := fun a b hab => by injection hab
  have h1 := List.map_injective_iff.mpr hinj h
  rw [List.append_assoc, List.append_assoc] at h1
  exact List.append_cancel_right (List.append_cancel_left h1)

/-! ## The claims -/

/-- C1: for integers `a`, `b` with `-2^31 < a, b < 2^31` and `op` one of `+`, `-`, `*`
whose exact result also lies strictly between `-2^31` and `2^31`, `calculate_expression`
on the line `"!calc " ++ dec a ++ " " ++ op ++ " " ++ dec b` (whatever the memory after
its terminator holds) makes exactly the `terminal_putchar` calls that write
`"Result: " ++ dec (a op b)` and a newline, and nothing else. -/
theorem calc_exact_result (a b op : Int) (rest : List Int)
    (ha1 : -2147483648 < a) (ha2 : a < 2147483648)
    (hb1 : -2147483648 < b) (hb2 : b < 2147483648)
    (hop : op = 43 ∨ op = 45 ∨ op = 42)
    (hr1 : -2147483648 < exact_result op a b) (hr2 : exact_result op a b < 2147483648) :
    calculate_expression (calc_line a op b ++ 0 :: rest)
      = some ((chars "Result: " ++ dec (exact_result op a b) ++ [10]).map TermCall.putchar) := by
  rw [calculate_expression_line a op b rest ha1 ha2 hb1 hb2 (by omega)]
  rw [← calc_print_dec _ hr1 hr2]
  unfold exact_result at hr1 hr2 ⊢
  unfold calc_switch
  rcases hop with h | h | h <;> subst h <;> simp at hr1 hr2 ⊢ <;> rw [wrap32_id] <;> omega

/-- Witness for C1: `!calc 3 + 4` writes `Result: 7` and a newline. -/
theorem calc_exact_result_witness :
    (-2147483648 < (3 : Int) ∧ (3 : Int) < 2147483648 ∧ -2147483648 < (4 : Int)
      ∧ (4 : Int) < 2147483648 ∧ -2147483648 < exact_result 43 3 4
      ∧ exact_result 43 3 4 < 2147483648)
    ∧ calculate_expression (lit "!calc 3 + 4")
      = some ((chars "Result: 7\n").map TermCall.putchar)
    ∧ calculate_expression (lit "!calc -3 + 4")
      = some ((chars "Result: 1\n").map TermCall.putchar) := by
  refine ⟨by decide, ?_, ?_⟩
  swap
  · have h := calc_exact_result (-3) 4 43 [] (by decide) (by decide) (by decide) (by decide)
      (Or.inl rfl) (by decide) (by decide)
    have e1 : calc_line (-3) 43 4 ++ [0] = lit "!calc -3 + 4" := by
      simp [calc_line, dec, decNat, decDigits, lit, chars]
    have e2 : chars "Result: " ++ dec (exact_result 43 (-3) 4) ++ [10] = chars "Result: 1\n" := by
      simp [exact_result, dec, decNat, decDigits, chars]
    rw [e1, e2] at h
    exact h
  have h := calc_exact_result 3 4 43 [] (by decide) (by decide) (by decide) (by decide)
    (Or.inl rfl) (by decide) (by decide)
  have e1 : calc_line 3 43 4 ++ [0] = lit "!calc 3 + 4" := by
    simp [calc_line, dec, decNat, decDigits, lit, chars]
  have e2 : chars "Result: " ++ dec (exact_result 43 3 4) ++ [10] = chars "Result: 7\n" := by
    simp [exact_result, dec, decNat, decDigits, chars]
  rw [e1, e2] at h
  exact h

/-- C2: for integers `a`, `b` with `-2^31 < a, b < 2^31` and `b ≠ 0`,
`calculate_expression` on the line `"!calc " ++ dec a ++ " / " ++ dec b` writes exactly
`"Result: " ++ dec q` and a newline, where `q` is the quotient truncated toward zero;
whenever the floored quotient differs from `q`, it is not what is written. -/
theorem calc_division_truncates (a b : Int) (rest : List Int)
    (ha1 : -2147483648 < a) (ha2 : a < 2147483648)
    (hb1 : -2147483648 < b) (hb2 : b < 2147483648) (hb0 : b ≠ 0) :
    calculate_expression (calc_line a 47 b ++ 0 :: rest)
        = some ((chars "Result: " ++ dec (trunc_quot a b) ++ [10]).map TermCall.putchar)
      ∧ (Int.fdiv a b ≠ trunc_quot a b →
          calculate_expression (calc_line a 47 b ++ 0 :: rest)
            ≠ some ((chars "Result: " ++ dec (Int.fdiv a b) ++ [10]).map TermCall.putchar)) := by
  have hq := trunc_quot_bound a b
  have hq1 : -2147483648 < trunc_quot a b := by omega
  have hq2 : trunc_quot a b < 2147483648 := by omega
  have hmain : calculate_expression (calc_line a 47 b ++ 0 :: rest)
      = some ((chars "Result: " ++ dec (trunc_quot a b) ++ [10]).map TermCall.putchar) := by
    rw [calculate_expression_line a 47 b rest ha1 ha2 hb1 hb2 (by omega)]
    rw [← calc_print_dec _ hq1 hq2, ← tdiv_eq_trunc_quot]
    have hmin : ¬ (a = -2147483648 ∧ b = -1) := by omega
    simp [calc_switch, hb0, hmin]
  refine ⟨hmain, ?_⟩
  intro hne heq
  rw [hmain] at heq
  have hdec := result_text_injective _ _ (Option.some.inj heq)
  exact hne (dec_injective _ _ hdec).symm

/-- Witness for C2: `!calc -7 / 2` writes `Result: -3` (the floored quotient is -4). -/
theorem calc_division_truncates_witness :
    (-2147483648 < (-7 : Int) ∧ (-7 : Int) < 2147483648 ∧ -2147483648 < (2 : Int)
      ∧ (2 : Int) < 2147483648 ∧ (2 : Int) ≠ 0)
    ∧ calculate_expression (lit "!calc -7 / 2")
      = some ((chars "Result: -3\n").map TermCall.putchar)
    ∧ calculate_expression (lit "!calc -7 / 2")
      ≠ some ((chars "Result: -4\n").map TermCall.putchar)
    ∧ calculate_expression (lit "!calc 7 / -2")
      = some ((chars "Result: -3\n").map TermCall.putchar) := by
  have g := calc_division_truncates 7 (-2) [] (by decide) (by decide) (by decide) (by decide)
    (by decide)
  have f1 : calc_line 7 47 (-2) ++ [0] = lit "!calc 7 / -2" := by
    simp [calc_line, dec, decNat, decDigits, lit, chars]
  have f2 : chars "Result: " ++ dec (trunc_quot 7 (-2)) ++ [10] = chars "Result: -3\n" := by
    have : trunc_quot 7 (-2) = -3 := by decide
    simp [this, dec, decNat, decDigits, chars]
  rw [f1, f2] at g
  have h := calc_division_truncates (-7) 2 [] (by decide) (by decide) (by decide) (by decide)
    (by decide)
  have e1 : calc_line (-7) 47 2 ++ [0] = lit "!calc -7 / 2" := by
    simp [calc_line, dec, decNat, decDigits, lit, chars]
  have e2 : chars "Result: " ++ dec (trunc_quot (-7) 2) ++ [10] = chars "Result: -3\n" := by
    have : trunc_quot (-7) 2 = -3 := by decide
    simp [this, dec, decNat, decDigits, chars]
  have e3 : chars "Result: " ++ dec (Int.fdiv (-7) 2) ++ [10] = chars "Result: -4\n" := by
    have : Int.fdiv (-7) 2 = -4 := by decide
    simp [this, dec, decNat, decDigits, chars]
  have e4 : Int.fdiv (-7) 2 ≠ trunc_quot (-7) 2 := by decide
  rw [e1, e2, e3] at h
  exact ⟨by decide, h.1, h.2 e4, g.1⟩
/-- C3: whenever the operator character read by `calculate_expression` is `/` and its
second operand parses to 0, whatever the first operand and the rest of the buffer, the
call writes exactly `"Error: Division by zero"` and a newline: no `Result:` text, and
the division is not evaluated (no divide error). -/
theorem calc_division_by_zero (input : List Int)
    (hop : calc_op input = 47) (hb : (calc_second input).1 = 0) :
    calculate_expression input
      = some ((chars "Error: Division by zero\n").map TermCall.putchar) := by
  have hmsg : terminal_writestring (lit "Error: Division by zero\n")
      = (chars "Error: Division by zero\n").map TermCall.putchar := by decide
  unfold calculate_expression calc_switch
  rw [hop, hb, ← hmsg]
  simp

/-- Witness for C3: `!calc 10 / 0`. -/
theorem calc_division_by_zero_witness :
    (calc_op (lit "!calc 10 / 0") = 47 ∧ (calc_second (lit "!calc 10 / 0")).1 = 0)
    ∧ calculate_expression (lit "!calc 10 / 0")
      = some ((chars "Error: Division by zero\n").map TermCall.putchar) :=
  ⟨by decide, calc_division_by_zero (lit "!calc 10 / 0") (by decide) (by decide)⟩

/-- C4: whenever the operator character read by `calculate_expression` (the character
after the first operand and the spaces following it) is none of `+ - * /`, the call
writes exactly `"Invalid operator. Use + - * /"` and a newline, whatever the operands. -/
theorem calc_invalid_operator (input : List Int)
    (h1 : calc_op input ≠ 43) (h2 : calc_op input ≠ 45)
    (h3 : calc_op input ≠ 42) (h4 : calc_op input ≠ 47) :
    calculate_expression input
      = some ((chars "Invalid operator. Use + - * /\n").map TermCall.putchar) := by
  have hmsg : terminal_writestring (lit "Invalid operator. Use + - * /\n")
      = (chars "Invalid operator. Use + - * /\n").map TermCall.putchar := by decide
  unfold calculate_expression calc_switch
  rw [if_neg h1, if_neg h2, if_neg h3, if_neg h4, hmsg]

/-- Witness for C4: `!calc 5 % 2`. -/
theorem calc_invalid_operator_witness :
    (calc_op (lit "!calc 5 % 2") = 37)
    ∧ calculate_expression (lit "!calc 5 % 2")
      = some ((chars "Invalid operator. Use + - * /\n").map TermCall.putchar) :=
  ⟨by decide, calc_invalid_operator (lit "!calc 5 % 2") (by decide) (by decide) (by decide)
    (by decide)⟩

/-- C5: for every command line that is not exactly `!ZenOS`, `!clear` or `!help` and whose
first five characters are not `!calc`, `handle_input` writes exactly
`"Unknown command. Type !help"` and a newline, and nothing else. -/
theorem handle_input_unknown (input : List Int) (hr : CharRange input)
    (h1 : cline input ≠ chars "!ZenOS") (h2 : cline input ≠ chars "!clear")
    (h3 : cline input ≠ chars "!help") (h4 : (cline input).take 5 ≠ chars "!calc") :
    handle_input input
      = some ((chars "Unknown command. Type !help\n").map TermCall.putchar) := by
  obtain ⟨t1, t2, t3, t4⟩ := handle_input_tests input hr
  have hmsg : terminal_writestring (lit "Unknown command. Type !help\n")
      = (chars "Unknown command. Type !help\n").map TermCall.putchar := by decide
  have hb : handle_input_branch input = Handler.unknown := by
    unfold handle_input_branch
    rw [if_neg (fun h => h1 (t1.mp h)), if_neg (fun h => h4 (t2.mp h)),
      if_neg (fun h => h2 (t3.mp h)), if_neg (fun h => h3 (t4.mp h))]
  rw [handle_input, hb, handle_input_body, hmsg]

/-- Witness for C5: the line `!hello`. -/
theorem handle_input_unknown_witness :
    (CharRange (lit "!hello") ∧ cline (lit "!hello") ≠ chars "!ZenOS"
      ∧ cline (lit "!hello") ≠ chars "!clear" ∧ cline (lit "!hello") ≠ chars "!help"
      ∧ (cline (lit "!hello")).take 5 ≠ chars "!calc")
    ∧ handle_input (lit "!hello")
      = some ((chars "Unknown command. Type !help\n").map TermCall.putchar) := by
  have hr : CharRange (lit "!hello") := by
    intro c hc
    simp [lit, chars] at hc
    omega
  exact ⟨⟨hr, by decide, by decide, by decide, by decide⟩,
    handle_input_unknown (lit "!hello") hr (by decide) (by decide) (by decide) (by decide)⟩

/-- C6: for every command line, the `if` chain of `handle_input` (`!ZenOS`, then the
5-character `!calc` prefix, then `!clear`, then `!help`) selects the same handler as the
specified policy (the three exact matches first, the `!calc` prefix second); and every
line whose first five characters are `!calc` is delegated to `calculate_expression`. -/
theorem handle_input_refines_policy (input : List Int) (hr : CharRange input) :
    handle_input_branch input = spec_policy (cline input)
    ∧ ((cline input).take 5 = chars "!calc" →
        handle_input_branch input = Handler.calc
        ∧ handle_input input = calculate_expression input) := by
  obtain ⟨t1, t2, t3, t4⟩ := handle_input_tests input hr
  have hcalc : (cline input).take 5 = chars "!calc" → handle_input_branch input = Handler.calc := by
    intro h
    have n1 : ¬ strcmp input (lit "!ZenOS") = 0 := by
      intro hz
      rw [t1.mp hz] at h
      revert h
      decide
    unfold handle_input_branch
    rw [if_neg n1, if_pos (t2.mpr h)]
  refine ⟨?_, fun h => ⟨hcalc h, by rw [handle_input, hcalc h, handle_input_body]⟩⟩
  unfold spec_policy
  by_cases c1 : cline input = chars "!ZenOS"
  · rw [if_pos c1]
    unfold handle_input_branch
    rw [if_pos (t1.mpr c1)]
  · by_cases c4 : (cline input).take 5 = chars "!calc"
    · have n2 : cline input ≠ chars "!clear" := by
        intro hz
        rw [hz] at c4
        revert c4
        decide
      have n3 : cline input ≠ chars "!help" := by
        intro hz
        rw [hz] at c4
        revert c4
        decide
      rw [if_neg c1, if_neg n2, if_neg n3, if_pos c4]
      exact hcalc c4
    · unfold handle_input_branch
      rw [if_neg c1, if_neg (fun h => c1 (t1.mp h)), if_neg (fun h => c4 (t2.mp h)), if_neg c4]
      by_cases c2 : cline input = chars "!clear"
      · rw [if_pos c2, if_pos (t3.mpr c2)]
      · rw [if_neg c2, if_neg (fun h => c2 (t3.mp h))]
        by_cases c3 : cline input = chars "!help"
        · rw [if_pos c3, if_pos (t4.mpr c3)]
        · rw [if_neg c3, if_neg (fun h => c3 (t4.mp h))]

/-- Witness for C6: the line `!calcfoo` is delegated to the expression evaluator. -/
theorem handle_input_refines_policy_witness :
    CharRange (lit "!calcfoo")
    ∧ handle_input_branch (lit "!calcfoo") = spec_policy (cline (lit "!calcfoo"))
    ∧ handle_input_branch (lit "!calcfoo") = Handler.calc
    ∧ handle_input (lit "!calcfoo") = calculate_expression (lit "!calcfoo") := by
  have hr : CharRange (lit "!calcfoo") := by
    intro c hc
    simp [lit, chars] at hc
    omega
  have h := handle_input_refines_policy (lit "!calcfoo") hr
  exact ⟨hr, h.1, h.2 (by decide)⟩

theorem size_sub_256 : size_sub 256 1 = 255 := by decide

/-- A run of `terminal_readstring(buffer, 256)` whose line has room before every key of
`ks` and is shorter than 255 after them, followed by a newline: the call returns the
edited line and has consumed the keys through the newline. -/
theorem readstring_newline (ks more buffer : List Int) (hbuf : buffer.length = 256)
    (hnl : ∀ c ∈ ks, c ≠ 10)
    (hroom : ∀ n, n ≤ ks.length → (edited_line (ks.take n)).length ≤ 254) :
    returned_line (terminal_readstring (ks ++ 10 :: more) buffer 256) = some (edited_line ks)
    ∧ unread_keys (terminal_readstring (ks ++ 10 :: more) buffer 256) = some more := by
  obtain ⟨st1, e1, e2, e3, e4⟩ := readstring_loop_run 256 ks (10 :: more)
    { buffer := buffer, length := 0, calls := [], stores := [] } hnl
    (by
      intro n hn
      have := hroom n (by omega)
      rw [size_sub_256]
      simp only [List.take_zero]
      unfold edited_line at this
      omega)
    (by simp) (by rw [size_sub_256]; simp [hbuf])
  simp only [List.take_zero] at e4
  have hfin := hroom ks.length (le_refl _)
  rw [List.take_length] at hfin
  have hl : st1.length = (edited_line ks).length := by
    have := congrArg List.length e4
    rw [List.length_take, min_eq_left e3] at this
    exact this
  have hlt : st1.length < size_sub 256 1 := by rw [size_sub_256]; omega
  have hz : ∀ c ∈ st1.buffer.take st1.length, c ≠ 0 := by
    intro c hc
    rw [e4] at hc
    have := foldl_edit_key_ge ks [] (by simp) c hc
    omega
  have hloop : terminal_readstring_loop 256 (10 :: more) st1
      = ReadOutcome.done { st1 with calls := st1.calls ++ [TermCall.putchar 10] } more := by
    rw [terminal_readstring_loop, if_pos hlt, if_pos rfl]
  unfold terminal_readstring
  rw [e1, hloop]
  simp only [returned_line, unread_keys, and_true]
  rw [cline_set_nul _ _ (by simp only [e2]; omega) hz, e4]
  rfl

/-- C7: for every key sequence that ends at its first newline and during which the
edited line never holds more than 254 characters, `terminal_readstring(buffer, 256)`
returns exactly the line obtained by the editing rules (and has read the keys through
the newline).  In particular `L ≤ 254` printable characters followed by a newline are
returned unchanged. -/
theorem readstring_edited_line (ks more buffer : List Int) (hbuf : buffer.length = 256) :
    ((∀ c ∈ ks, c ≠ 10) →
      (∀ n, n ≤ ks.length → (edited_line (ks.take n)).length ≤ 254) →
      returned_line (terminal_readstring (ks ++ 10 :: more) buffer 256)
          = some (edited_line ks)
        ∧ unread_keys (terminal_readstring (ks ++ 10 :: more) buffer 256) = some more)
    ∧ ((∀ c ∈ ks, 32 ≤ c) → ks.length ≤ 254 →
      returned_line (terminal_readstring (ks ++ 10 :: more) buffer 256) = some ks) := by
  refine ⟨fun hnl hroom => readstring_newline ks more buffer hbuf hnl hroom, ?_⟩
  intro hp hlen
  have hnl : ∀ c ∈ ks, c ≠ 10 := by
    intro c hc
    have := hp c hc
    omega
  have hed : ∀ n, edited_line (ks.take n) = ks.take n := by
    intro n
    unfold edited_line
    rw [foldl_edit_key_printable _ _ (fun c hc => hp c (List.mem_of_mem_take hc))]
    simp
  have hroom : ∀ n, n ≤ ks.length → (edited_line (ks.take n)).length ≤ 254 := by
    intro n hn
    rw [hed n, List.length_take]
    omega
  have h := (readstring_newline ks more buffer hbuf hnl hroom).1
  have hfull := hed ks.length
  rw [List.take_length] at hfull
  rw [h, hfull]

/-- Witness for C7: the keys `a b BS c NL` typed into a zeroed 256-byte array return the
line `ac`; the three printable keys `a b c` and a newline return `abc`. -/
theorem readstring_edited_line_witness :
    ((List.replicate 256 (0 : Int)).length = 256
      ∧ (∀ c ∈ [97, 98, 8, 99], c ≠ (10 : Int))
      ∧ (∀ n, n ≤ [97, 98, 8, (99 : Int)].length →
          (edited_line ([97, 98, 8, (99 : Int)].take n)).length ≤ 254))
    ∧ returned_line (terminal_readstring ([97, 98, 8, 99] ++ 10 :: []) (List.replicate 256 0) 256)
        = some [97, 99]
    ∧ returned_line (terminal_readstring ([97, 98, 99] ++ 10 :: []) (List.replicate 256 0) 256)
        = some [97, 98, 99] := by
  have hb : (List.replicate 256 (0 : Int)).length = 256 := List.length_replicate _ _
  have h1 : ∀ c ∈ [97, 98, 8, 99], c ≠ (10 : Int) := by decide
  have h2 : ∀ n, n ≤ [97, 98, 8, (99 : Int)].length →
      (edited_line ([97, 98, 8, (99 : Int)].take n)).length ≤ 254 := by
    intro n hn
    have hn4 : n ≤ 4 := hn
    interval_cases n <;> decide
  have e : edited_line [97, 98, 8, 99] = [97, 99] := by decide
  have r := ((readstring_edited_line [97, 98, 8, 99] [] (List.replicate 256 0) hb).1 h1 h2).1
  rw [e] at r
  exact ⟨⟨hb, h1, h2⟩, r,
    (readstring_edited_line [97, 98, 99] [] (List.replicate 256 0) hb).2 (by decide) (by decide)⟩

theorem readstring_loop_full (max_length : Nat) (keys : List Int) (st : ReadState)
    (h : ¬ st.length < size_sub max_length 1) :
    terminal_readstring_loop max_length keys st = ReadOutcome.done st keys := by
  cases keys with
  | nil => rw [terminal_readstring_loop, if_neg h]
  | cons c ks => rw [terminal_readstring_loop, if_neg h]

/-- A run of `terminal_readstring(buffer, 256)` on at least 255 printable keys: the loop
ends as soon as `length` reaches 255; the call returns the first 255 keys and leaves
every later key unread. -/
theorem readstring_full (ks tl buffer : List Int) (hbuf : buffer.length = 256)
    (hp : ∀ c ∈ ks, 32 ≤ c) (hL : 255 ≤ ks.length) :
    returned_line (terminal_readstring (ks ++ tl) buffer 256) = some (ks.take 255)
    ∧ unread_keys (terminal_readstring (ks ++ tl) buffer 256) = some (ks.drop 255 ++ tl) := by
  have hp1 : ∀ c ∈ ks.take 255, 32 ≤ c := fun c hc => hp c (List.mem_of_mem_take hc)
  have hsplit : ks ++ tl = ks.take 255 ++ (ks.drop 255 ++ tl) := by
    rw [← List.append_assoc, List.take_append_drop]
  obtain ⟨st1, e1, e2, e3, e4⟩ := readstring_loop_run 256 (ks.take 255) (ks.drop 255 ++ tl)
    { buffer := buffer, length := 0, calls := [], stores := [] }
    (by
      intro c hc
      have := hp1 c hc
      omega)
    (by
      intro n hn
      rw [size_sub_256]
      simp only [List.take_zero]
      rw [foldl_edit_key_printable _ _ (fun c hc => hp1 c (List.mem_of_mem_take hc))]
      simp only [List.nil_append, List.length_take] at hn ⊢
      omega)
    (by simp) (by rw [size_sub_256]; simp [hbuf])
  simp only [List.take_zero] at e4
  rw [foldl_edit_key_printable _ _ hp1, List.nil_append] at e4
  have hl : st1.length = 255 := by
    have := congrArg List.length e4
    rw [List.length_take, List.length_take, min_eq_left e3] at this
    omega
  have hz : ∀ c ∈ st1.buffer.take st1.length, c ≠ 0 := by
    intro c hc
    rw [e4] at hc
    have := hp1 c hc
    omega
  have hloop := readstring_loop_full 256 (ks.drop 255 ++ tl) st1
    (by rw [size_sub_256]; omega)
  unfold terminal_readstring
  rw [hsplit, e1, hloop]
  simp only [returned_line, unread_keys, and_true]
  rw [cline_set_nul _ _ (by simp only [e2]; omega) hz, e4]

/-- C8 (amended): for every sequence of `L ≥ 255` printable characters followed by a
newline, `terminal_readstring(buffer, 256)` returns exactly the first 255 characters of
the sequence. -/
theorem readstring_truncates_to_255 (ks more buffer : List Int) (hbuf : buffer.length = 256)
    (hp : ∀ c ∈ ks, 32 ≤ c) (hL : 255 ≤ ks.length) :
    returned_line (terminal_readstring (ks ++ 10 :: more) buffer 256) = some (ks.take 255) :=
  (readstring_full ks (10 :: more) buffer hbuf hp hL).1

/-- Witness for C8 (amended): 300 keys `a` and a newline return 255 characters. -/
theorem readstring_truncates_to_255_witness :
    ((List.replicate 256 (0 : Int)).length = 256
      ∧ (∀ c ∈ List.replicate 300 (97 : Int), 32 ≤ c)
      ∧ 255 ≤ (List.replicate 300 (97 : Int)).length)
    ∧ returned_line
        (terminal_readstring (List.replicate 300 97 ++ 10 :: []) (List.replicate 256 0) 256)
      = some (List.replicate 255 97) := by
  have hb : (List.replicate 256 (0 : Int)).length = 256 := List.length_replicate _ _
  have hp : ∀ c ∈ List.replicate 300 (97 : Int), 32 ≤ c := by
    intro c hc
    rw [List.eq_of_mem_replicate hc]
    decide
  have hL : 255 ≤ (List.replicate 300 (97 : Int)).length := by
    rw [List.length_replicate]
    decide
  have h := readstring_truncates_to_255 (List.replicate 300 97) [] (List.replicate 256 0) hb hp hL
  rw [List.take_replicate] at h
  exact ⟨⟨hb, hp, hL⟩, h⟩

/-- Counterexample to C8 as stated: on 255 keys `a` and a newline the call returns all
255 characters, not the first 254. -/
theorem readstring_254_counterexample :
    returned_line
        (terminal_readstring (List.replicate 255 97 ++ [10]) (List.replicate 256 0) 256)
      = some (List.replicate 255 97)
    ∧ returned_line
        (terminal_readstring (List.replicate 255 97 ++ [10]) (List.replicate 256 0) 256)
      ≠ some ((List.replicate 255 (97 : Int)).take 254) := by
  have hb : (List.replicate 256 (0 : Int)).length = 256 := List.length_replicate _ _
  have hp : ∀ c ∈ List.replicate 255 (97 : Int), 32 ≤ c := by
    intro c hc
    rw [List.eq_of_mem_replicate hc]
    decide
  have hL : 255 ≤ (List.replicate 255 (97 : Int)).length := by
    rw [List.length_replicate]
  have h := (readstring_full (List.replicate 255 97) [10] (List.replicate 256 0) hb hp hL).1
  rw [List.take_replicate] at h
  refine ⟨h, ?_⟩
  rw [h, List.take_replicate]
  intro hc
  have := congrArg List.length (Option.some.inj hc)
  rw [List.length_replicate, List.length_replicate] at this
  omega

/-- C9 (amended): when the line buffer becomes full the loop of `terminal_readstring`
ends without reading further: for every sequence of `L ≥ 255` printable characters
followed by a newline, one call of `terminal_readstring(buffer, 256)` consumes exactly
the first 255 characters and leaves the other `L - 255` characters and the newline
unread in the keyboard stream. -/
theorem readstring_full_leaves_excess (ks more buffer : List Int) (hbuf : buffer.length = 256)
    (hp : ∀ c ∈ ks, 32 ≤ c) (hL : 255 ≤ ks.length) :
    unread_keys (terminal_readstring (ks ++ 10 :: more) buffer 256)
      = some (ks.drop 255 ++ 10 :: more) :=
  (readstring_full ks (10 :: more) buffer hbuf hp hL).2

/-- Witness for C9 (amended): after 257 keys `a` and a newline, two `a` and the newline
are left unread. -/
theorem readstring_full_leaves_excess_witness :
    ((List.replicate 256 (0 : Int)).length = 256
      ∧ (∀ c ∈ List.replicate 257 (97 : Int), 32 ≤ c)
      ∧ 255 ≤ (List.replicate 257 (97 : Int)).length)
    ∧ unread_keys
        (terminal_readstring (List.replicate 257 97 ++ 10 :: []) (List.replicate 256 0) 256)
      = some [97, 97, 10] := by
  have hb : (List.replicate 256 (0 : Int)).length = 256 := List.length_replicate _ _
  have hp : ∀ c ∈ List.replicate 257 (97 : Int), 32 ≤ c := by
    intro c hc
    rw [List.eq_of_mem_replicate hc]
    decide
  have hL : 255 ≤ (List.replicate 257 (97 : Int)).length := by
    rw [List.length_replicate]
    decide
  have h := readstring_full_leaves_excess (List.replicate 257 97) [] (List.replicate 256 0)
    hb hp hL
  rw [List.drop_replicate] at h
  exact ⟨⟨hb, hp, hL⟩, h⟩

/-- Counterexample to C9 as stated: on 256 keys `a` and a newline the call does not
consume the whole sequence; the last `a` and the newline are left in the keyboard
stream. -/
theorem readstring_discard_counterexample :
    unread_keys
        (terminal_readstring (List.replicate 256 97 ++ [10]) (List.replicate 256 0) 256)
      = some [97, 10]
    ∧ unread_keys
        (terminal_readstring (List.replicate 256 97 ++ [10]) (List.replicate 256 0) 256)
      ≠ some [] := by
  have hb : (List.replicate 256 (0 : Int)).length = 256 := List.length_replicate _ _
  have hp : ∀ c ∈ List.replicate 256 (97 : Int), 32 ≤ c := by
    intro c hc
    rw [List.eq_of_mem_replicate hc]
    decide
  have hL : 255 ≤ (List.replicate 256 (97 : Int)).length := by
    rw [List.length_replicate]
    decide
  have h := (readstring_full (List.replicate 256 97) [10] (List.replicate 256 0) hb hp hL).2
  rw [List.drop_replicate] at h
  refine ⟨h, ?_⟩
  rw [h]
  decide

theorem size_sub_one (max_length : Nat) (h1 : 1 ≤ max_length) (h2 : max_length < 4294967296) :
    size_sub max_length 1 = max_length - 1 := by
  unfold size_sub
  omega

/-- Invariant of the loop of `terminal_readstring`: `length` stays at most
`max_length - 1` and every index stored to is below `max_length - 1`, wherever the run
ends (returned or blocked). -/
theorem readstring_loop_bounds (max_length : Nat) (h1 : 1 ≤ max_length)
    (h2 : max_length < 4294967296) (keys : List Int) (st : ReadState)
    (hlen : st.length ≤ max_length - 1) (hst : ∀ i ∈ st.stores, i < max_length - 1) :
    (final_state (terminal_readstring_loop max_length keys st)).length ≤ max_length - 1
    ∧ ∀ i ∈ (final_state (terminal_readstring_loop max_length keys st)).stores,
        i < max_length - 1 := by
  have hs := size_sub_one max_length h1 h2
  induction keys generalizing st with
  | nil =>
    rw [terminal_readstring_loop]
    split <;> exact ⟨hlen, hst⟩
  | cons c ks ih =>
    rw [terminal_readstring_loop, hs]
    by_cases hlt : st.length < max_length - 1
    · rw [if_pos hlt]
      by_cases h10 : c = 10
      · rw [if_pos h10]
        exact ⟨hlen, hst⟩
      · rw [if_neg h10]
        by_cases h8 : c = 8
        · rw [if_pos h8]
          by_cases hpos : 0 < st.length
          · rw [if_pos hpos]
            exact ih _ (by simp only; omega) hst
          · rw [if_neg hpos]
            exact ih st hlen hst
        · rw [if_neg h8]
          by_cases hp : 32 ≤ c
          · rw [if_pos hp]
            refine ih _ (by simp only; omega) ?_
            intro i hi
            rcases List.mem_append.mp hi with h | h
            · exact hst i h
            · simp only [List.mem_singleton] at h
              omega
          · rw [if_neg hp]
            exact ih st hlen hst
    · rw [if_neg hlt]
      exact ⟨hlen, hst⟩

/-- The loop of `terminal_readstring` ends (is not left blocked in `keyboard_read`) when
the key stream holds a newline. -/
theorem readstring_loop_returns (max_length : Nat) (keys : List Int) (st : ReadState)
    (h : (10 : Int) ∈ keys) :
    has_returned (terminal_readstring_loop max_length keys st) = true := by
  induction keys generalizing st with
  | nil => simp at h
  | cons c ks ih =>
    rw [terminal_readstring_loop]
    by_cases hlt : st.length < size_sub max_length 1
    · rw [if_pos hlt]
      by_cases h10 : c = 10
      · rw [if_pos h10]
        rfl
      · have hks : (10 : Int) ∈ ks := by
          rcases List.mem_cons.mp h with h | h
          · exact absurd h.symm h10
          · exact h
        rw [if_neg h10]
        split
        · split
          · exact ih _ hks
          · exact ih _ hks
        · split
          · exact ih _ hks
          · exact ih _ hks
    · rw [if_neg hlt]
      rfl

/-- C10: for every `max_length ≥ 1` (a `size_t`), every key stream and every initial
array, wherever a run of `terminal_readstring(buffer, max_length)` stands (returned, or
blocked in `keyboard_read` after the keys given so far), `length` is at most
`max_length - 1` and every array index stored to is below `max_length`; a run that
has returned stored last the terminator, at index `length ≤ max_length - 1`; and the
run does return once the key stream holds a newline. -/
theorem readstring_within_bounds (max_length : Nat) (h1 : 1 ≤ max_length)
    (h2 : max_length < 4294967296) (keys buffer : List Int) :
    (final_state (terminal_readstring keys buffer max_length)).length ≤ max_length - 1
    ∧ (∀ i ∈ (final_state (terminal_readstring keys buffer max_length)).stores, i < max_length)
    ∧ (has_returned (terminal_readstring keys buffer max_length) = true →
        (final_state (terminal_readstring keys buffer max_length)).stores.getLast?
          = some (final_state (terminal_readstring keys buffer max_length)).length)
    ∧ ((10 : Int) ∈ keys → has_returned (terminal_readstring keys buffer max_length) = true) := by
  have hb := readstring_loop_bounds max_length h1 h2 keys
    { buffer := buffer, length := 0, calls := [], stores := [] } (Nat.zero_le _)
    (by intro i hi; simp at hi)
  have hr := readstring_loop_returns max_length keys
    { buffer := buffer, length := 0, calls := [], stores := [] }
  unfold terminal_readstring
  cases ho : terminal_readstring_loop max_length keys
      { buffer := buffer, length := 0, calls := [], stores := [] } with
  | done st rest =>
    rw [ho] at hb
    simp only [final_state] at hb
    simp only [final_state, has_returned, List.getLast?_append, List.getLast?_singleton,
      Option.or_some, forall_const, implies_true, and_true, true_and]
    refine ⟨hb.1, ?_⟩
    intro i hi
    rcases List.mem_append.mp hi with h | h
    · have := hb.2 i h
      omega
    · simp only [List.mem_singleton] at h
      omega
  | blocked st =>
    rw [ho] at hb hr
    simp only [final_state] at hb
    simp only [final_state, has_returned, Bool.false_eq_true, false_implies, true_and]
    refine ⟨hb.1, ?_, ?_⟩
    · intro i hi
      have := hb.2 i hi
      omega
    · intro h10
      exact absurd (hr h10) (by simp [has_returned])

/-- Witness for C10: with `max_length = 4`, the keys `a b c d` and a newline. -/
theorem readstring_within_bounds_witness :
    ((1 : Nat) ≤ 4 ∧ (4 : Nat) < 4294967296)
    ∧ (final_state (terminal_readstring [97, 98, 99, 100, 10] [1, 2, 3, 4] 4)).length ≤ 4 - 1
    ∧ (∀ i ∈ (final_state (terminal_readstring [97, 98, 99, 100, 10] [1, 2, 3, 4] 4)).stores,
        i < 4) :=
  have h := readstring_within_bounds 4 (by decide) (by decide) [97, 98, 99, 100, 10] [1, 2, 3, 4]
  ⟨by decide, h.1, h.2.1⟩

/-! ## Lemmas on the terminal state -/

theorem uchar_toNat_lt (c : Int) : (uchar c).toNat < 256 := by
  unfold uchar
  omega

theorem vga_entry_char (uc color : Nat) (h : uc < 256) : vga_entry uc color % 256 = uc := by
  unfold vga_entry
  have e : uc ||| (color <<< 8) = 2 ^ 8 * color + uc := by
    rw [Nat.lor_comm, Nat.shiftLeft_eq, Nat.mul_comm]
    exact (Nat.mul_add_lt_is_or (by simpa using h) color).symm
  rw [e]
  omega

theorem default_color : vga_entry_color VGA_COLOR_LIGHT_GREY VGA_COLOR_BLACK = 7 := by decide

theorem putentryat_buffer (t : Terminal) (c : Int) (color x y i : Nat) :
    (terminal_putentryat t c color x y).buffer i
      = if i = y * 80 + x then vga_entry (uchar c).toNat color else t.buffer i := by
  simp only [terminal_putentryat, VGA_WIDTH, Function.update_apply]

theorem putentryat_row (t : Terminal) (c : Int) (color x y : Nat) :
    (terminal_putentryat t c color x y).row = t.row := rfl

theorem putentryat_column (t : Terminal) (c : Int) (color x y : Nat) :
    (terminal_putentryat t c color x y).column = t.column := rfl

theorem putentryat_color (t : Terminal) (c : Int) (color x y : Nat) :
    (terminal_putentryat t c color x y).color = t.color := rfl

/-- A loop `for (x = 0; x < n; x++) terminal_putentryat(c, terminal_color, x, y)`:
it stores the same cell in the `n` cells from `(y, 0)` on and nothing else. -/
theorem fill_row (c : Int) (y n : Nat) (t : Terminal) :
    ((List.range n).foldl (fun t2 x => terminal_putentryat t2 c t2.color x y) t).row = t.row
    ∧ ((List.range n).foldl (fun t2 x => terminal_putentryat t2 c t2.color x y) t).column
        = t.column
    ∧ ((List.range n).foldl (fun t2 x => terminal_putentryat t2 c t2.color x y) t).color
        = t.color
    ∧ ∀ i, ((List.range n).foldl (fun t2 x => terminal_putentryat t2 c t2.color x y) t).buffer i
        = if y * 80 ≤ i ∧ i < y * 80 + n then vga_entry (uchar c).toNat t.color
          else t.buffer i := by
  induction n with
  | zero =>
    refine ⟨rfl, rfl, rfl, fun i => ?_⟩
    have : ¬ (y * 80 ≤ i ∧ i < y * 80 + 0) := by omega
    rw [if_neg this]
    rfl
  | succ n ih =>
    rw [List.range_succ, List.foldl_append]
    simp only [List.foldl_cons, List.foldl_nil]
    generalize (List.range n).foldl (fun t2 x => terminal_putentryat t2 c t2.color x y) t = tn
      at ih ⊢
    obtain ⟨h1, h2, h3, h4⟩ := ih
    refine ⟨h1, h2, h3, fun i => ?_⟩
    rw [putentryat_buffer, h3, h4 i]
    by_cases hi : i = y * 80 + n
    · have : y * 80 ≤ i ∧ i < y * 80 + (n + 1) := by omega
      rw [if_pos hi, if_pos this]
    · rw [if_neg hi]
      by_cases hr : y * 80 ≤ i ∧ i < y * 80 + n
      · have : y * 80 ≤ i ∧ i < y * 80 + (n + 1) := by omega
        rw [if_pos hr, if_pos this]
      · have : ¬ (y * 80 ≤ i ∧ i < y * 80 + (n + 1)) := by omega
        rw [if_neg hr, if_neg this]

/-- The nested loops of `terminal_initialize` over `m` rows: the first `m * 80` cells
become blanks in the terminal color. -/
theorem fill_rows (m : Nat) (t : Terminal) :
    ((List.range m).foldl
      (fun t1 y =>
        (List.range VGA_WIDTH).foldl (fun t2 x => terminal_putentryat t2 32 t2.color x y) t1)
      t).row = t.row
    ∧ ((List.range m).foldl
      (fun t1 y =>
        (List.range VGA_WIDTH).foldl (fun t2 x => terminal_putentryat t2 32 t2.color x y) t1)
      t).column = t.column
    ∧ ((List.range m).foldl
      (fun t1 y =>
        (List.range VGA_WIDTH).foldl (fun t2 x => terminal_putentryat t2 32 t2.color x y) t1)
      t).color = t.color
    ∧ ∀ i, ((List.range m).foldl
      (fun t1 y =>
        (List.range VGA_WIDTH).foldl (fun t2 x => terminal_putentryat t2 32 t2.color x y) t1)
      t).buffer i = if i < m * 80 then vga_entry 32 t.color else t.buffer i := by
  induction m with
  | zero =>
    refine ⟨rfl, rfl, rfl, fun i => ?_⟩
    have : ¬ i < 0 * 80 := by omega
    rw [if_neg this]
    rfl
  | succ m ih =>
    rw [List.range_succ, List.foldl_append]
    simp only [List.foldl_cons, List.foldl_nil]
    generalize (List.range m).foldl
      (fun t1 y =>
        (List.range VGA_WIDTH).foldl (fun t2 x => terminal_putentryat t2 32 t2.color x y) t1)
      t = tm at ih ⊢
    obtain ⟨h1, h2, h3, h4⟩ := ih
    obtain ⟨g1, g2, g3, g4⟩ := fill_row 32 m VGA_WIDTH tm
    refine ⟨g1.trans h1, g2.trans h2, g3.trans h3, fun i => ?_⟩
    rw [g4 i, h3, h4 i]
    have e32 : (uchar 32).toNat = 32 := by decide
    rw [e32]
    simp only [VGA_WIDTH]
    by_cases ha : i < m * 80
    · have h5 : i < (m + 1) * 80 := by omega
      have h6 : ¬ (m * 80 ≤ i ∧ i < m * 80 + 80) := by omega
      rw [if_neg h6, if_pos ha, if_pos h5]
    · by_cases hb : m * 80 ≤ i ∧ i < m * 80 + 80
      · have h5 : i < (m + 1) * 80 := by omega
        rw [if_pos hb, if_pos h5]
      · have h5 : ¬ i < (m + 1) * 80 := by omega
        rw [if_neg hb, if_neg ha, if_neg h5]

/-- State left by `terminal_initialize`: cursor `(0, 0)`, color 7, every cell of the
grid a blank in that color, the memory past the grid untouched. -/
theorem terminal_initialize_eq (t : Terminal) :
    ( terminal_initialize t).row = 0 ∧ ( terminal_initialize t).column = 0
    ∧ ( terminal_initialize t).color = 7
    ∧ ∀ i, ( terminal_initialize t).buffer i = if i < 2000 then vga_entry 32 7 else t.buffer i := by
  unfold terminal_initialize
  rw [default_color]
  obtain ⟨h1, h2, h3, h4⟩ := fill_rows VGA_HEIGHT
    { row := 0, column := 0, color := 7, buffer := t.buffer }
  exact ⟨h1, h2, h3, fun i => by rw [h4 i]; rfl⟩

/-- The inner loop of the copy in `terminal_scroll`, for row `y ≥ 1`, after `n` cells:
the first `n` cells of row `y - 1` hold what was 80 cells further. -/
theorem scroll_copy_row (y n : Nat) (hy : 1 ≤ y) (t : Terminal) :
    ((List.range n).foldl
      (fun t3 x =>
        ({ t3 with
          buffer := Function.update t3.buffer ((y - 1) * VGA_WIDTH + x)
                      (t3.buffer (y * VGA_WIDTH + x)) } : Terminal)) t).row = t.row
    ∧ ((List.range n).foldl
      (fun t3 x =>
        ({ t3 with
          buffer := Function.update t3.buffer ((y - 1) * VGA_WIDTH + x)
                      (t3.buffer (y * VGA_WIDTH + x)) } : Terminal)) t).column = t.column
    ∧ ((List.range n).foldl
      (fun t3 x =>
        ({ t3 with
          buffer := Function.update t3.buffer ((y - 1) * VGA_WIDTH + x)
                      (t3.buffer (y * VGA_WIDTH + x)) } : Terminal)) t).color = t.color
    ∧ ∀ i, ((List.range n).foldl
      (fun t3 x =>
        ({ t3 with
          buffer := Function.update t3.buffer ((y - 1) * VGA_WIDTH + x)
                      (t3.buffer (y * VGA_WIDTH + x)) } : Terminal)) t).buffer i
        = if (y - 1) * 80 ≤ i ∧ i < (y - 1) * 80 + n then t.buffer (i + 80)
          else t.buffer i := by
  induction n with
  | zero =>
    refine ⟨rfl, rfl, rfl, fun i => ?_⟩
    have : ¬ ((y - 1) * 80 ≤ i ∧ i < (y - 1) * 80 + 0) := by omega
    rw [if_neg this]
    rfl
  | succ n ih =>
    rw [List.range_succ, List.foldl_append]
    simp only [List.foldl_cons, List.foldl_nil]
    generalize (List.range n).foldl
      (fun t3 x =>
        ({ t3 with
          buffer := Function.update t3.buffer ((y - 1) * VGA_WIDTH + x)
                      (t3.buffer (y * VGA_WIDTH + x)) } : Terminal)) t = tn at ih ⊢
    obtain ⟨h1, h2, h3, h4⟩ := ih
    refine ⟨h1, h2, h3, fun i => ?_⟩
    simp only [VGA_WIDTH, Function.update_apply]
    have hsrc : tn.buffer (y * 80 + n) = t.buffer ((y - 1) * 80 + n + 80) := by
      have hn : ¬ ((y - 1) * 80 ≤ y * 80 + n ∧ y * 80 + n < (y - 1) * 80 + n) := by omega
      have he : y * 80 + n = (y - 1) * 80 + n + 80 := by omega
      rw [h4, if_neg hn, he]
    rw [hsrc, h4 i]
    by_cases hi : i = (y - 1) * 80 + n
    · have : (y - 1) * 80 ≤ i ∧ i < (y - 1) * 80 + (n + 1) := by omega
      rw [if_pos hi, if_pos this, hi]
    · rw [if_neg hi]
      by_cases hr : (y - 1) * 80 ≤ i ∧ i < (y - 1) * 80 + n
      · have : (y - 1) * 80 ≤ i ∧ i < (y - 1) * 80 + (n + 1) := by omega
        rw [if_pos hr, if_pos this]
      · have : ¬ ((y - 1) * 80 ≤ i ∧ i < (y - 1) * 80 + (n + 1)) := by omega
        rw [if_neg hr, if_neg this]

/-- The copy loops of `terminal_scroll` over the rows `1 .. m`: the first `m * 80`
cells hold what was 80 cells further, the others are untouched. -/
theorem scroll_copy_rows (m : Nat) (t : Terminal) :
    ((List.range' 1 m).foldl
      (fun t2 y =>
        (List.range VGA_WIDTH).foldl
          (fun t3 x =>
            ({ t3 with
              buffer := Function.update t3.buffer ((y - 1) * VGA_WIDTH + x)
                          (t3.buffer (y * VGA_WIDTH + x)) } : Terminal))
          t2)
      t).row = t.row
    ∧ ((List.range' 1 m).foldl
      (fun t2 y =>
        (List.range VGA_WIDTH).foldl
          (fun t3 x =>
            ({ t3 with
              buffer := Function.update t3.buffer ((y - 1) * VGA_WIDTH + x)
                          (t3.buffer (y * VGA_WIDTH + x)) } : Terminal))
          t2)
      t).column = t.column
    ∧ ((List.range' 1 m).foldl
      (fun t2 y =>
        (List.range VGA_WIDTH).foldl
          (fun t3 x =>
            ({ t3 with
              buffer := Function.update t3.buffer ((y - 1) * VGA_WIDTH + x)
                          (t3.buffer (y * VGA_WIDTH + x)) } : Terminal))
          t2)
      t).color = t.color
    ∧ ∀ i, ((List.range' 1 m).foldl
      (fun t2 y =>
        (List.range VGA_WIDTH).foldl
          (fun t3 x =>
            ({ t3 with
              buffer := Function.update t3.buffer ((y - 1) * VGA_WIDTH + x)
                          (t3.buffer (y * VGA_WIDTH + x)) } : Terminal))
          t2)
      t).buffer i = if i < m * 80 then t.buffer (i + 80) else t.buffer i := by
  induction m with
  | zero =>
    refine ⟨rfl, rfl, rfl, fun i => ?_⟩
    have : ¬ i < 0 * 80 := by omega
    rw [if_neg this]
    rfl
  | succ m ih =>
    rw [List.range'_1_concat, List.foldl_append]
    simp only [List.foldl_cons, List.foldl_nil]
    generalize (List.range' 1 m).foldl
      (fun t2 y =>
        (List.range VGA_WIDTH).foldl
          (fun t3 x =>
            ({ t3 with
              buffer := Function.update t3.buffer ((y - 1) * VGA_WIDTH + x)
                          (t3.buffer (y * VGA_WIDTH + x)) } : Terminal))
          t2)
      t = tm at ih ⊢
    obtain ⟨h1, h2, h3, h4⟩ := ih
    obtain ⟨g1, g2, g3, g4⟩ := scroll_copy_row (1 + m) VGA_WIDTH (by omega) tm
    refine ⟨g1.trans h1, g2.trans h2, g3.trans h3, fun i => ?_⟩
    rw [g4 i, h4 i, h4 (i + 80)]
    simp only [VGA_WIDTH]
    by_cases ha : i < m * 80
    · have h5 : i < (m + 1) * 80 := by omega
      have h6 : ¬ ((1 + m - 1) * 80 ≤ i ∧ i < (1 + m - 1) * 80 + 80) := by omega
      rw [if_neg h6, if_pos ha, if_pos h5]
    · by_cases hb : (1 + m - 1) * 80 ≤ i ∧ i < (1 + m - 1) * 80 + 80
      · have h5 : i < (m + 1) * 80 := by omega
        have h6 : ¬ i + 80 < m * 80 := by omega
        rw [if_pos hb, if_neg h6, if_pos h5]
      · have h5 : ¬ i < (m + 1) * 80 := by omega
        rw [if_neg hb, if_neg ha, if_neg h5]

/-- State left by `terminal_scroll`: every cell of the rows `0 .. 23` holds what was
one row below, the last row is blank in the terminal color, the cursor row is 24, the
column, the color and the memory past the grid are untouched. -/
theorem terminal_scroll_eq (t : Terminal) :
    (terminal_scroll t).row = 24 ∧ (terminal_scroll t).column = t.column
    ∧ (terminal_scroll t).color = t.color
    ∧ ∀ i, (terminal_scroll t).buffer i
        = if i < 1920 then t.buffer (i + 80)
          else if i < 2000 then vga_entry 32 t.color else t.buffer i := by
  unfold terminal_scroll
  simp only []
  generalize hcopy : (List.range' 1 (VGA_HEIGHT - 1)).foldl
      (fun t2 y =>
        (List.range VGA_WIDTH).foldl
          (fun t3 x =>
            ({ t3 with
              buffer := Function.update t3.buffer ((y - 1) * VGA_WIDTH + x)
                          (t3.buffer (y * VGA_WIDTH + x)) } : Terminal))
          t2)
      t = t1
  obtain ⟨h1, h2, h3, h4⟩ := scroll_copy_rows (VGA_HEIGHT - 1) t
  rw [hcopy] at h1 h2 h3 h4
  obtain ⟨g1, g2, g3, g4⟩ := fill_row 32 (VGA_HEIGHT - 1) VGA_WIDTH t1
  refine ⟨rfl, g2.trans h2, g3.trans h3, fun i => ?_⟩
  show ((List.range VGA_WIDTH).foldl
    (fun t5 x => terminal_putentryat t5 32 t5.color x (VGA_HEIGHT - 1)) t1).buffer i = _
  rw [g4 i, h3, h4 i]
  have e32 : (uchar 32).toNat = 32 := by decide
  rw [e32]
  simp only [VGA_WIDTH, VGA_HEIGHT]
  by_cases ha : i < 1920
  · have h6 : ¬ ((25 - 1) * 80 ≤ i ∧ i < (25 - 1) * 80 + 80) := by omega
    have h7 : i < (25 - 1) * 80 := by omega
    rw [if_neg h6, if_pos h7, if_pos ha]
  · by_cases hb : i < 2000
    · have h6 : (25 - 1) * 80 ≤ i ∧ i < (25 - 1) * 80 + 80 := by omega
      rw [if_pos h6, if_neg ha, if_pos hb]
    · have h6 : ¬ ((25 - 1) * 80 ≤ i ∧ i < (25 - 1) * 80 + 80) := by omega
      have h7 : ¬ i < (25 - 1) * 80 := by omega
      rw [if_neg h6, if_neg h7, if_neg ha, if_neg hb]

theorem hidecursor_eq (t : Terminal) :
    (terminal_hidecursor t).row = t.row ∧ (terminal_hidecursor t).column = t.column
    ∧ (terminal_hidecursor t).color = t.color
    ∧ ∀ i, (terminal_hidecursor t).buffer i
        = if i = t.row * 80 + t.column then vga_entry 32 t.color else t.buffer i := by
  refine ⟨rfl, rfl, rfl, fun i => ?_⟩
  rw [terminal_hidecursor, putentryat_buffer]
  rfl

theorem showcursor_eq (t : Terminal) :
    (terminal_showcursor t).row = t.row ∧ (terminal_showcursor t).column = t.column
    ∧ (terminal_showcursor t).color = t.color
    ∧ ∀ i, (terminal_showcursor t).buffer i
        = if i = t.row * 80 + t.column then vga_entry 95 t.color else t.buffer i := by
  refine ⟨rfl, rfl, rfl, fun i => ?_⟩
  rw [terminal_showcursor, putentryat_buffer]
  rfl

/-- Function `terminal_putchar` on a character other than newline with the cursor
inside the row: no wrap; the character replaces the cell under the cursor, the column
advances by one and the cursor glyph is drawn in the next memory cell. -/
theorem putchar_plain (t : Terminal) (c : Int) (hc : c ≠ 10) (hcol : t.column < 80) :
    (terminal_putchar t c).row = t.row ∧ (terminal_putchar t c).column = t.column + 1
    ∧ (terminal_putchar t c).color = t.color
    ∧ ∀ i, (terminal_putchar t c).buffer i
        = if i = t.row * 80 + t.column + 1 then vga_entry 95 t.color
          else if i = t.row * 80 + t.column then vga_entry (uchar c).toNat t.color
          else t.buffer i := by
  have hw : ¬ (terminal_hidecursor t).column ≥ VGA_WIDTH := by
    show ¬ t.column ≥ VGA_WIDTH
    simp only [VGA_WIDTH]
    omega
  unfold terminal_putchar
  simp only [if_neg hc, if_neg hw]
  refine ⟨rfl, rfl, rfl, fun i => ?_⟩
  rw [(showcursor_eq _).2.2.2 i]
  show (if i = t.row * 80 + (t.column + 1) then vga_entry 95 t.color
    else (terminal_putentryat (terminal_hidecursor t) c t.color t.column t.row).buffer i) = _
  rw [putentryat_buffer, (hidecursor_eq t).2.2.2 i]
  by_cases h1 : i = t.row * 80 + t.column + 1
  · have h1' : i = t.row * 80 + (t.column + 1) := by omega
    rw [if_pos h1, if_pos h1']
  · have h1' : ¬ i = t.row * 80 + (t.column + 1) := by omega
    rw [if_neg h1, if_neg h1']
    by_cases h2 : i = t.row * 80 + t.column
    · rw [if_pos h2, if_pos h2]
    · rw [if_neg h2, if_neg h2, if_neg h2]

/-- Writing a run of characters other than newline that fits in the current row: the
row and the color stay, the column advances by the length, the cells from the cursor on
hold the characters in order, the cursor glyph is drawn right after them, and no other
memory cell changes. -/
theorem write_run (s : List Int) (t : Terminal) (hs : ∀ c ∈ s, c ≠ 10)
    (hfit : t.column + s.length ≤ 80) :
    (run_calls t (s.map TermCall.putchar)).row = t.row
    ∧ (run_calls t (s.map TermCall.putchar)).column = t.column + s.length
    ∧ (run_calls t (s.map TermCall.putchar)).color = t.color
    ∧ (∀ i, i < t.row * 80 + t.column →
        (run_calls t (s.map TermCall.putchar)).buffer i = t.buffer i)
    ∧ (∀ j, j < s.length →
        (run_calls t (s.map TermCall.putchar)).buffer (t.row * 80 + t.column + j)
          = vga_entry (uchar (charAt s j)).toNat t.color)
    ∧ (s ≠ [] →
        (run_calls t (s.map TermCall.putchar)).buffer (t.row * 80 + t.column + s.length)
          = vga_entry 95 t.color)
    ∧ (∀ i, t.row * 80 + t.column + s.length < i →
        (run_calls t (s.map TermCall.putchar)).buffer i = t.buffer i) := by
  induction s generalizing t with
  | nil =>
    refine ⟨rfl, rfl, rfl, fun i _ => rfl, fun j hj => ?_, fun h => absurd rfl h, fun i _ => rfl⟩
    simp at hj
  | cons c s ih =>
    have hc : c ≠ 10 := hs c (List.mem_cons_self _ _)
    have hs1 : ∀ x ∈ s, x ≠ 10 := fun x hx => hs x (List.mem_cons_of_mem _ hx)
    simp only [List.length_cons] at hfit ⊢
    obtain ⟨p1, p2, p3, p4⟩ := putchar_plain t c hc (by omega)
    obtain ⟨q1, q2, q3, q4, q5, q6, q7⟩ := ih (terminal_putchar t c) hs1 (by rw [p2]; omega)
    simp only [p1, p2, p3] at q4 q5 q6 q7
    have hrun : run_calls t ((c :: s).map TermCall.putchar)
        = run_calls (terminal_putchar t c) (s.map TermCall.putchar) := rfl
    rw [hrun]
    refine ⟨q1.trans p1, by rw [q2, p2]; omega, q3.trans p3, ?_, ?_, ?_, ?_⟩
    · intro i hi
      rw [q4 i (by omega), p4 i, if_neg (by omega), if_neg (by omega)]
    · intro j hj
      cases j with
      | zero =>
        rw [q4 _ (by omega), p4, if_neg (by omega), if_pos (by omega), charAt_cons_zero]
      | succ j =>
        have e : t.row * 80 + t.column + (j + 1) = t.row * 80 + (t.column + 1) + j := by omega
        have hch : charAt (c :: s) (j + 1) = charAt s j := by simp [charAt]
        rw [e, q5 j (by omega), hch]
    · intro _
      have e : t.row * 80 + t.column + (s.length + 1)
          = t.row * 80 + (t.column + 1) + s.length := by omega
      rw [e]
      by_cases hn : s = []
      · subst hn
        show (terminal_putchar t c).buffer _ = _
        rw [p4, if_pos (by simp only [List.length_nil]; omega)]
      · exact q6 hn
    · intro i hi
      rw [q7 i (by omega), p4 i, if_neg (by omega), if_neg (by omega)]

theorem run_calls_append (t : Terminal) (a b : List TermCall) :
    run_calls t (a ++ b) = run_calls (run_calls t a) b := by
  unfold run_calls
  rw [List.foldl_append]

theorem nextline_no_scroll (t : Terminal) (h : t.row + 1 ≠ 25) :
    terminal_nextline t = { t with column := 0, row := t.row + 1 } := by
  unfold terminal_nextline
  simp only [VGA_HEIGHT]
  rw [if_neg h]

/-- Function `terminal_putchar` on a newline above the last row: the cursor goes to the
start of the next row, without scrolling. -/
theorem putchar_newline (t : Terminal) (h : t.row + 1 ≠ 25) :
    (terminal_putchar t 10).row = t.row + 1 ∧ (terminal_putchar t 10).column = 0
    ∧ (terminal_putchar t 10).color = t.color := by
  unfold terminal_putchar
  simp only [if_true]
  rw [nextline_no_scroll _ (by exact h)]
  exact ⟨rfl, rfl, rfl⟩

theorem newline_run (n : Nat) (t : Terminal) (h : t.row + n ≤ 24) (hn : 0 < n) :
    (run_calls t ((List.replicate n 10).map TermCall.putchar)).row = t.row + n
    ∧ (run_calls t ((List.replicate n 10).map TermCall.putchar)).column = 0
    ∧ (run_calls t ((List.replicate n 10).map TermCall.putchar)).color = t.color := by
  induction n generalizing t with
  | zero => omega
  | succ n ih =>
    obtain ⟨p1, p2, p3⟩ := putchar_newline t (by omega)
    have hrun : run_calls t ((List.replicate (n + 1) 10).map TermCall.putchar)
        = run_calls (terminal_putchar t 10) ((List.replicate n 10).map TermCall.putchar) := rfl
    rw [hrun]
    by_cases h0 : n = 0
    · subst h0
      exact ⟨p1, p2, p3⟩
    · obtain ⟨q1, q2, q3⟩ := ih (terminal_putchar t 10) (by rw [p1]; omega) (by omega)
      exact ⟨by rw [q1, p1]; omega, q2, q3.trans p3⟩

/-- Function `terminal_putchar` on a character other than newline when the column is
80 (a full row) above the last row: the deferred wrap is done first, the character goes
to the first cell of the next row and the cursor to its second cell. -/
theorem putchar_wraps (t : Terminal) (c : Int) (hc : c ≠ 10) (hcol : t.column = 80)
    (hrow : t.row + 1 ≠ 25) :
    (terminal_putchar t c).row = t.row + 1 ∧ (terminal_putchar t c).column = 1
    ∧ cell_at (terminal_putchar t c) (t.row + 1) 0 = vga_entry (uchar c).toNat t.color := by
  have hw : (terminal_hidecursor t).column ≥ VGA_WIDTH := by
    show t.column ≥ VGA_WIDTH
    simp only [VGA_WIDTH]
    omega
  unfold terminal_putchar
  simp only [if_neg hc, if_pos hw]
  rw [nextline_no_scroll _ (by exact hrow)]
  refine ⟨rfl, rfl, ?_⟩
  unfold cell_at
  rw [(showcursor_eq _).2.2.2]
  simp only [VGA_WIDTH]
  rw [if_neg (by show ¬ (t.row + 1) * 80 + 0 = (t.row + 1) * 80 + (0 + 1); omega),
    putentryat_buffer, if_pos (by show (t.row + 1) * 80 + 0 = (t.row + 1) * 80 + 0; rfl)]
  rfl

/-- C11 (amended): from a terminal state with the cursor at column 0 of a row `r < 24`,
`terminal_writestring` of a string of exactly 80 characters other than newline leaves
`terminal_row = r` and `terminal_column = 80`: the wrap is deferred.  Row `r` holds the 80
characters in order in the terminal color, the cursor glyph is drawn in the first cell
of row `r + 1`, and the next character other than newline is written at `(r + 1, 0)`,
which moves the cursor to `(r + 1, 1)`. -/
theorem writestring_fills_row (t : Terminal) (s rest : List Int)
    (hcol : t.column = 0) (hrow : t.row < 24) (hlen : s.length = 80)
    (hs : ∀ c ∈ s, c ≠ 0 ∧ c ≠ 10) :
    (run_calls t (terminal_writestring (s ++ 0 :: rest))).row = t.row
    ∧ (run_calls t (terminal_writestring (s ++ 0 :: rest))).column = 80
    ∧ (∀ j, j < 80 →
        cell_at (run_calls t (terminal_writestring (s ++ 0 :: rest))) t.row j
          = vga_entry (uchar (charAt s j)).toNat t.color)
    ∧ cell_at (run_calls t (terminal_writestring (s ++ 0 :: rest))) (t.row + 1) 0
        = vga_entry 95 t.color
    ∧ (∀ c, c ≠ 10 →
        (terminal_putchar (run_calls t (terminal_writestring (s ++ 0 :: rest))) c).row
            = t.row + 1
        ∧ (terminal_putchar (run_calls t (terminal_writestring (s ++ 0 :: rest))) c).column
            = 1
        ∧ cell_at (terminal_putchar (run_calls t (terminal_writestring (s ++ 0 :: rest))) c)
            (t.row + 1) 0 = vga_entry (uchar c).toNat t.color) := by
  rw [terminal_writestring_cstr s rest (fun c hc => (hs c hc).1)]
  obtain ⟨q1, q2, q3, _, q5, q6, _⟩ := write_run s t (fun c hc => (hs c hc).2) (by omega)
  have hne : s ≠ [] := by
    intro h
    rw [h] at hlen
    simp at hlen
  have hcol' : (run_calls t (s.map TermCall.putchar)).column = 80 := by rw [q2]; omega
  refine ⟨q1, hcol', ?_, ?_, ?_⟩
  · intro j hj
    have := q5 j (by omega)
    rw [hcol, Nat.add_zero] at this
    unfold cell_at
    simp only [VGA_WIDTH]
    exact this
  · have := q6 hne
    rw [hcol, hlen] at this
    unfold cell_at
    simp only [VGA_WIDTH]
    rw [← this]
    congr 1
    omega
  · intro c hc
    have h := putchar_wraps (run_calls t (s.map TermCall.putchar)) c hc hcol'
      (by rw [q1]; omega)
    rw [q1, q3] at h
    exact h

/-- Witness for C11 (amended): 80 characters `a` written from row 3, column 0. -/
theorem writestring_fills_row_witness :
    ((3 : Nat) < 24 ∧ (List.replicate 80 (97 : Int)).length = 80)
    ∧ (run_calls ⟨3, 0, 7, fun _ => 0⟩
        (terminal_writestring (List.replicate 80 97 ++ 0 :: []))).row = 3
    ∧ (run_calls ⟨3, 0, 7, fun _ => 0⟩
        (terminal_writestring (List.replicate 80 97 ++ 0 :: []))).column = 80 := by
  have hs : ∀ c ∈ List.replicate 80 (97 : Int), c ≠ 0 ∧ c ≠ 10 := by
    intro c hc
    rw [List.eq_of_mem_replicate hc]
    decide
  have h := writestring_fills_row ⟨3, 0, 7, fun _ => 0⟩ (List.replicate 80 97) [] rfl
    (by decide) (List.length_replicate _ _) hs
  exact ⟨⟨by decide, List.length_replicate _ _⟩, h.1, h.2.1⟩

/-- Counterexample to C11 as stated: 80 characters `a` written from row 0, column 0
leave the cursor position at row 0, column 80, not at `(1, 0)`. -/
theorem writestring_wrap_counterexample :
    (run_calls ⟨0, 0, 7, fun _ => 0⟩ (terminal_writestring (List.replicate 80 97 ++ [0]))).row
      = 0
    ∧ (run_calls ⟨0, 0, 7, fun _ => 0⟩
        (terminal_writestring (List.replicate 80 97 ++ [0]))).column = 80
    ∧ ((run_calls ⟨0, 0, 7, fun _ => 0⟩
          (terminal_writestring (List.replicate 80 97 ++ [0]))).row,
        (run_calls ⟨0, 0, 7, fun _ => 0⟩
          (terminal_writestring (List.replicate 80 97 ++ [0]))).column) ≠ (1, 0) := by
  have hs : ∀ c ∈ List.replicate 80 (97 : Int), c ≠ 0 := by
    intro c hc
    rw [List.eq_of_mem_replicate hc]
    decide
  have hs' : ∀ c ∈ List.replicate 80 (97 : Int), c ≠ 10 := by
    intro c hc
    rw [List.eq_of_mem_replicate hc]
    decide
  rw [terminal_writestring_cstr _ [] hs]
  obtain ⟨q1, q2, _⟩ := write_run (List.replicate 80 97) ⟨0, 0, 7, fun _ => 0⟩ hs'
    (by rw [List.length_replicate])
  rw [List.length_replicate] at q2
  refine ⟨q1, q2, ?_⟩
  rw [q1, q2]
  decide

/-- C12: from every terminal state, `terminal_scroll` makes row `r - 1` equal to the
former row `r` for every `r` from 1 to 24, makes every cell of the last row a blank in
the active color, sets the cursor row to 24, and leaves the cursor column and the
active color unchanged. -/
theorem scroll_law (t : Terminal) :
    (∀ r x, 1 ≤ r → r ≤ 24 → x < 80 →
      cell_at (terminal_scroll t) (r - 1) x = cell_at t r x)
    ∧ (∀ x, x < 80 → cell_at (terminal_scroll t) 24 x = vga_entry 32 t.color)
    ∧ (terminal_scroll t).row = 24
    ∧ (terminal_scroll t).column = t.column
    ∧ (terminal_scroll t).color = t.color := by
  obtain ⟨h1, h2, h3, h4⟩ := terminal_scroll_eq t
  refine ⟨?_, ?_, h1, h2, h3⟩
  · intro r x hr1 hr2 hx
    unfold cell_at
    simp only [VGA_WIDTH]
    have e : (r - 1) * 80 + x + 80 = r * 80 + x := by omega
    rw [h4, if_pos (by omega), e]
  · intro x hx
    unfold cell_at
    simp only [VGA_WIDTH]
    rw [h4, if_neg (by omega), if_pos (by omega)]

/-- Witness for C12: scrolling a screen whose cell `i` holds the number `i`. -/
theorem scroll_law_witness :
    cell_at (terminal_scroll ⟨5, 9, 7, fun i => i⟩) 0 0 = 80
    ∧ cell_at (terminal_scroll ⟨5, 9, 7, fun i => i⟩) 23 79 = 1999
    ∧ cell_at (terminal_scroll ⟨5, 9, 7, fun i => i⟩) 24 0 = vga_entry 32 7
    ∧ (terminal_scroll ⟨5, 9, 7, fun i => i⟩).row = 24
    ∧ (terminal_scroll ⟨5, 9, 7, fun i => i⟩).column = 9 := by
  have h := scroll_law ⟨5, 9, 7, fun i => i⟩
  exact ⟨h.1 1 0 (by decide) (by decide) (by decide),
    h.1 24 79 (by decide) (by decide) (by decide), h.2.1 0 (by decide), h.2.2.1, h.2.2.2.1⟩

/-- C13 (evaluation at the failing input): after `terminal_initialize`, writing 24
newlines and then 80 characters `a` leaves the cursor position at row 24, column 80,
which is not a cell of the grid, and the last `terminal_showcursor` has stored the
cursor glyph at coordinate `(80, 24)`, the memory cell 2000, past the 2000 cells of the
80x25 grid (that cell held 0 before). -/
theorem cursor_leaves_grid :
    (run_calls ( terminal_initialize ⟨0, 0, 0, fun _ => 0⟩)
      (terminal_writestring (List.replicate 24 10 ++ List.replicate 80 97 ++ [0]))).row = 24
    ∧ (run_calls ( terminal_initialize ⟨0, 0, 0, fun _ => 0⟩)
      (terminal_writestring (List.replicate 24 10 ++ List.replicate 80 97 ++ [0]))).column
        = 80
    ∧ (run_calls ( terminal_initialize ⟨0, 0, 0, fun _ => 0⟩)
      (terminal_writestring (List.replicate 24 10 ++ List.replicate 80 97 ++ [0]))).buffer
        (24 * 80 + 80) = vga_entry 95 7
    ∧ ¬ (24 * 80 + 80 < 25 * 80)
    ∧ ( terminal_initialize ⟨0, 0, 0, fun _ => 0⟩).buffer (24 * 80 + 80) = 0 := by
  obtain ⟨i1, i2, i3, i4⟩ := terminal_initialize_eq ⟨0, 0, 0, fun _ => 0⟩
  have hz : ∀ c ∈ List.replicate 24 (10 : Int) ++ List.replicate 80 97, c ≠ 0 := by
    intro c hc
    rcases List.mem_append.mp hc with h | h
    · rw [List.eq_of_mem_replicate h]
      decide
    · rw [List.eq_of_mem_replicate h]
      decide
  have ha : ∀ c ∈ List.replicate 80 (97 : Int), c ≠ 10 := by
    intro c hc
    rw [List.eq_of_mem_replicate hc]
    decide
  rw [terminal_writestring_cstr _ [] hz, List.map_append, run_calls_append]
  obtain ⟨n1, n2, n3⟩ := newline_run 24 ( terminal_initialize ⟨0, 0, 0, fun _ => 0⟩)
    (by rw [i1]) (by decide)
  obtain ⟨q1, q2, q3, _, _, q6, _⟩ := write_run (List.replicate 80 97)
    (run_calls ( terminal_initialize ⟨0, 0, 0, fun _ => 0⟩)
      ((List.replicate 24 10).map TermCall.putchar)) ha
    (by rw [n2, List.length_replicate])
  have hne : List.replicate 80 (97 : Int) ≠ [] := by
    intro h
    have := congrArg List.length h
    rw [List.length_replicate] at this
    simp at this
  have hg := q6 hne
  rw [n1, n2, n3, i1, i3, List.length_replicate] at hg
  refine ⟨by rw [q1, n1, i1], by rw [q2, n2, List.length_replicate], hg, by decide, ?_⟩
  rw [i4, if_neg (by decide)]

/-- State left by `terminal_backspace` at cursor `(0, 0)`: the cursor does not move and
the cursor glyph is (re)drawn in cell `(0, 0)`; nothing else changes. -/
theorem backspace_origin (t : Terminal) (hr : t.row = 0) (hc : t.column = 0) :
    (terminal_backspace t).row = 0 ∧ (terminal_backspace t).column = 0
    ∧ (terminal_backspace t).color = t.color
    ∧ ∀ i, (terminal_backspace t).buffer i
        = if i = 0 then vga_entry 95 t.color else t.buffer i := by
  have h1 : ¬ (terminal_hidecursor t).column > 0 := by
    show ¬ t.column > 0
    omega
  have h2 : ¬ (terminal_hidecursor t).row > 0 := by
    show ¬ t.row > 0
    omega
  unfold terminal_backspace
  simp only [if_neg h1, if_neg h2]
  refine ⟨hr, hc, rfl, fun i => ?_⟩
  rw [(showcursor_eq _).2.2.2 i]
  show (if i = t.row * 80 + t.column then vga_entry 95 t.color
    else (terminal_putentryat (terminal_hidecursor t) 32 t.color t.column t.row).buffer i) = _
  rw [putentryat_buffer, (hidecursor_eq t).2.2.2 i, hr, hc]
  by_cases h0 : i = 0
  · rw [if_pos (by omega), if_pos h0]
  · rw [if_neg (by omega), if_neg (by omega), if_neg (by omega), if_neg h0]

/-- C15 (amended): for every terminal state whose cursor is at row 0, column 0,
`terminal_backspace` leaves the cursor position, the active color and every cell other
than `(0, 0)` unchanged and leaves the cursor glyph, in the active color, in cell
`(0, 0)`; it is a no-op when that cell already shows the cursor glyph. -/
theorem backspace_at_origin (t : Terminal) (hr : t.row = 0) (hc : t.column = 0) :
    (terminal_backspace t).row = t.row ∧ (terminal_backspace t).column = t.column
    ∧ (terminal_backspace t).color = t.color
    ∧ (∀ r x, (r, x) ≠ (0, 0) → x < 80 →
        cell_at (terminal_backspace t) r x = cell_at t r x)
    ∧ cell_at (terminal_backspace t) 0 0 = vga_entry 95 t.color
    ∧ (cell_at t 0 0 = vga_entry 95 t.color →
        ∀ i, (terminal_backspace t).buffer i = t.buffer i) := by
  obtain ⟨h1, h2, h3, h4⟩ := backspace_origin t hr hc
  refine ⟨by rw [h1, hr], by rw [h2, hc], h3, ?_, ?_, ?_⟩
  · intro r x hne hx
    unfold cell_at
    simp only [VGA_WIDTH]
    have : r * 80 + x ≠ 0 := by
      intro h
      apply hne
      have hr0 : r = 0 := by omega
      have hx0 : x = 0 := by omega
      rw [hr0, hx0]
    rw [h4, if_neg this]
  · unfold cell_at
    simp only [VGA_WIDTH]
    rw [h4, if_pos (by omega)]
  · intro hg i
    unfold cell_at at hg
    simp only [VGA_WIDTH] at hg
    rw [h4]
    by_cases h0 : i = 0
    · rw [if_pos h0, h0, ← hg]
    · rw [if_neg h0]

/-- Witness for C15 (amended): a state with the cursor glyph shown at `(0, 0)`. -/
theorem backspace_at_origin_witness :
    (terminal_backspace ⟨0, 0, 7, fun _ => vga_entry 95 7⟩).row = 0
    ∧ (terminal_backspace ⟨0, 0, 7, fun _ => vga_entry 95 7⟩).column = 0
    ∧ cell_at (terminal_backspace ⟨0, 0, 7, fun _ => vga_entry 95 7⟩) 0 0 = vga_entry 95 7 := by
  have h := backspace_at_origin ⟨0, 0, 7, fun _ => vga_entry 95 7⟩ rfl rfl
  exact ⟨h.1, h.2.1, h.2.2.2.2.1⟩

/-- Counterexample to C15 as stated: right after `terminal_initialize` the cursor is
at `(0, 0)` and cell `(0, 0)` is a blank; `terminal_backspace` turns that cell into the
cursor glyph, so the cells are not identical before and after. -/
theorem backspace_noop_counterexample :
    ( terminal_initialize ⟨0, 0, 0, fun _ => 0⟩).row = 0
    ∧ ( terminal_initialize ⟨0, 0, 0, fun _ => 0⟩).column = 0
    ∧ cell_at ( terminal_initialize ⟨0, 0, 0, fun _ => 0⟩) 0 0 = vga_entry 32 7
    ∧ cell_at (terminal_backspace ( terminal_initialize ⟨0, 0, 0, fun _ => 0⟩)) 0 0
        = vga_entry 95 7
    ∧ cell_at (terminal_backspace ( terminal_initialize ⟨0, 0, 0, fun _ => 0⟩)) 0 0
        ≠ cell_at ( terminal_initialize ⟨0, 0, 0, fun _ => 0⟩) 0 0 := by
  obtain ⟨i1, i2, i3, i4⟩ := terminal_initialize_eq ⟨0, 0, 0, fun _ => 0⟩
  obtain ⟨_, _, _, b4⟩ := backspace_origin ( terminal_initialize ⟨0, 0, 0, fun _ => 0⟩) i1 i2
  have e1 : cell_at ( terminal_initialize ⟨0, 0, 0, fun _ => 0⟩) 0 0 = vga_entry 32 7 := by
    unfold cell_at
    rw [i4, if_pos (by decide)]
  have e2 : cell_at (terminal_backspace ( terminal_initialize ⟨0, 0, 0, fun _ => 0⟩)) 0 0
      = vga_entry 95 7 := by
    unfold cell_at
    rw [b4, if_pos (by decide), i3]
  refine ⟨i1, i2, e1, e2, ?_⟩
  rw [e1, e2]
  decide

theorem Terminal_eq (a b : Terminal) (h1 : a.row = b.row) (h2 : a.column = b.column)
    (h3 : a.color = b.color) (h4 : ∀ i, a.buffer i = b.buffer i) : a = b := by
  cases a
  cases b
  simp only at h1 h2 h3 h4
  subst h1 h2 h3
  simp only [Terminal.mk.injEq, true_and]
  exact funext h4

theorem terminal_initialize_idem (t : Terminal) :
    terminal_initialize ( terminal_initialize t) = terminal_initialize t := by
  obtain ⟨a1, a2, a3, a4⟩ := terminal_initialize_eq t
  obtain ⟨b1, b2, b3, b4⟩ := terminal_initialize_eq ( terminal_initialize t)
  refine Terminal_eq _ _ (by rw [b1, a1]) (by rw [b2, a2]) (by rw [b3, a3]) (fun i => ?_)
  rw [b4, a4]
  by_cases h : i < 2000
  · rw [if_pos h, if_pos h]
  · rw [if_neg h, if_neg h]

theorem run_calls_single (u : Terminal) (c : TermCall) :
    run_calls u [c] = terminal_call u c := rfl

theorem handle_input_clear : handle_input (lit "!clear") = some [TermCall.init] := by decide

/-- C17: for every terminal state, dispatching `!clear` twice in a row through
`handle_input` yields the same state as dispatching it once, namely cursor `(0, 0)`,
the default color, and every one of the 80x25 cells a blank in that color. -/
theorem clear_idempotent (t : Terminal) :
    (handle_input_on t (lit "!clear")).bind (fun t1 => handle_input_on t1 (lit "!clear"))
      = handle_input_on t (lit "!clear")
    ∧ ∃ t1, handle_input_on t (lit "!clear") = some t1
        ∧ t1.row = 0 ∧ t1.column = 0
        ∧ t1.color = vga_entry_color VGA_COLOR_LIGHT_GREY VGA_COLOR_BLACK
        ∧ ∀ r x, r < 25 → x < 80 → cell_at t1 r x = vga_entry 32 t1.color := by
  have hon : ∀ u : Terminal, handle_input_on u (lit "!clear") = some ( terminal_initialize u) := by
    intro u
    simp only [handle_input_on, handle_input_clear, Option.map_some', run_calls_single,
      terminal_call]
  obtain ⟨a1, a2, a3, a4⟩ := terminal_initialize_eq t
  refine ⟨?_, terminal_initialize t, hon t, a1, a2, by rw [a3, default_color], ?_⟩
  · rw [hon t, Option.some_bind, hon, terminal_initialize_idem]
  · intro r x hr hx
    unfold cell_at
    simp only [VGA_WIDTH]
    rw [a4, if_pos (by omega), a3]

/-- Witness for C17: `!clear` dispatched twice from a state with cursor `(3, 4)`. -/
theorem clear_idempotent_witness :
    (handle_input_on ⟨3, 4, 1, fun i => i⟩ (lit "!clear")).bind
        (fun t1 => handle_input_on t1 (lit "!clear"))
      = handle_input_on ⟨3, 4, 1, fun i => i⟩ (lit "!clear") :=
  (clear_idempotent ⟨3, 4, 1, fun i => i⟩).1

theorem cell_char_entry (c : Int) (color : Nat) :
    cell_char (vga_entry (uchar c).toNat color) = (uchar c).toNat :=
  vga_entry_char _ _ (uchar_toNat_lt c)

theorem cell_char_blank (color : Nat) : cell_char (vga_entry 32 color) = 32 :=
  vga_entry_char 32 color (by decide)

theorem cell_char_glyph (color : Nat) : cell_char (vga_entry 95 color) = 95 :=
  vga_entry_char 95 color (by decide)

theorem hidecursor_no_glyph (t : Terminal) (h : glyph_only_at_cursor t) :
    no_glyph (terminal_hidecursor t).buffer := by
  intro i hi
  rw [(hidecursor_eq t).2.2.2 i]
  by_cases hc : i = t.row * 80 + t.column
  · rw [if_pos hc, cell_char_blank]
    decide
  · rw [if_neg hc]
    exact h i hi hc

theorem putentryat_no_glyph (t : Terminal) (c : Int) (color x y : Nat)
    (h : no_glyph t.buffer) (hc : (uchar c).toNat ≠ 95) :
    no_glyph (terminal_putentryat t c color x y).buffer := by
  intro i hi
  rw [putentryat_buffer]
  by_cases he : i = y * 80 + x
  · rw [if_pos he, cell_char_entry]
    exact hc
  · rw [if_neg he]
    exact h i hi

theorem scroll_no_glyph (t : Terminal) (h : no_glyph t.buffer) :
    no_glyph (terminal_scroll t).buffer := by
  intro i hi
  rw [(terminal_scroll_eq t).2.2.2 i]
  by_cases h1 : i < 1920
  · rw [if_pos h1]
    exact h (i + 80) (by omega)
  · rw [if_neg h1, if_pos hi, cell_char_blank]
    decide

theorem nextline_no_glyph (t : Terminal) (h : no_glyph t.buffer) :
    no_glyph (terminal_nextline t).buffer := by
  unfold terminal_nextline
  simp only []
  split
  · exact scroll_no_glyph _ h
  · exact h

theorem showcursor_shown (t : Terminal) (h : no_glyph t.buffer) :
    cursor_shown (terminal_showcursor t) ∧ glyph_only_at_cursor (terminal_showcursor t) := by
  obtain ⟨s1, s2, _, s4⟩ := showcursor_eq t
  constructor
  · unfold cursor_shown
    rw [s1, s2, s4, if_pos rfl, cell_char_glyph]
  · intro i hi hne
    rw [s1, s2] at hne
    rw [s4, if_neg hne]
    exact h i hi

/-- Function `terminal_putchar`, for a character other than `_`, keeps every grid cell
but the one under the cursor free of the cursor glyph, and draws the glyph under the
cursor. -/
theorem putchar_cursor (t : Terminal) (c : Int) (h : glyph_only_at_cursor t)
    (hc : (uchar c).toNat ≠ 95) :
    cursor_shown (terminal_putchar t c) ∧ glyph_only_at_cursor (terminal_putchar t c) := by
  have h1 := hidecursor_no_glyph t h
  unfold terminal_putchar
  simp only []
  apply showcursor_shown
  split
  · exact nextline_no_glyph _ h1
  · split
    · exact putentryat_no_glyph _ _ _ _ _ (nextline_no_glyph _ h1) hc
    · exact putentryat_no_glyph _ _ _ _ _ h1 hc

/-- Function `terminal_backspace` keeps every grid cell but the one under the cursor
free of the cursor glyph, and draws the glyph under the cursor. -/
theorem backspace_cursor (t : Terminal) (h : glyph_only_at_cursor t) :
    cursor_shown (terminal_backspace t) ∧ glyph_only_at_cursor (terminal_backspace t) := by
  have h1 := hidecursor_no_glyph t h
  unfold terminal_backspace
  simp only []
  apply showcursor_shown
  apply putentryat_no_glyph _ _ _ _ _ _ (by decide)
  split
  · exact h1
  · split
    · exact h1
    · exact h1

theorem initialize_no_glyph (t : Terminal) : no_glyph ( terminal_initialize t).buffer := by
  intro i hi
  rw [(terminal_initialize_eq t).2.2.2 i, if_pos hi, cell_char_blank]
  decide

theorem no_glyph_only_at_cursor (t : Terminal) (h : no_glyph t.buffer) :
    glyph_only_at_cursor t := fun i hi _ => h i hi

theorem terminal_call_cursor (t : Terminal) (call : TermCall) (h : glyph_only_at_cursor t)
    (hc : ∀ c, call = TermCall.putchar c → (uchar c).toNat ≠ 95) :
    glyph_only_at_cursor (terminal_call t call)
    ∧ (call ≠ TermCall.init → cursor_shown (terminal_call t call)) := by
  cases call with
  | putchar c =>
    have := putchar_cursor t c h (hc c rfl)
    exact ⟨this.2, fun _ => this.1⟩
  | backspace =>
    have := backspace_cursor t h
    exact ⟨this.2, fun _ => this.1⟩
  | init =>
    exact ⟨no_glyph_only_at_cursor _ (initialize_no_glyph t), fun hne => absurd rfl hne⟩

theorem run_calls_cursor (calls : List TermCall) (t : Terminal) (h : glyph_only_at_cursor t)
    (hc : ∀ c, TermCall.putchar c ∈ calls → (uchar c).toNat ≠ 95) :
    glyph_only_at_cursor (run_calls t calls) := by
  induction calls generalizing t with
  | nil => exact h
  | cons call calls ih =>
    have h1 := (terminal_call_cursor t call h
      (fun c hcall => hc c (by rw [hcall]; exact List.mem_cons_self _ _))).1
    exact ih (terminal_call t call) h1 (fun c hm => hc c (List.mem_cons_of_mem _ hm))

/-- C14 (amended): in any state reached from `terminal_initialize` by terminal operations
(`terminal_putchar` and `terminal_writestring` of characters other than `_`,
`terminal_backspace`, `terminal_initialize`), after an operation other than
`terminal_initialize` returns, the memory cell under the cursor, at index
`terminal_row * 80 + terminal_column`, bears the cursor glyph `_` and no other cell of
the grid does; right after `terminal_initialize` no cell of the grid bears it. -/
theorem cursor_glyph_invariant (t0 : Terminal) (calls : List TermCall) (last : TermCall)
    (hc : ∀ c, TermCall.putchar c ∈ calls ++ [last] → (uchar c).toNat ≠ 95)
    (hlast : last ≠ TermCall.init) :
    cell_char ((run_calls ( terminal_initialize t0) (calls ++ [last])).buffer
        ((run_calls ( terminal_initialize t0) (calls ++ [last])).row * 80
          + (run_calls ( terminal_initialize t0) (calls ++ [last])).column)) = 95
    ∧ (∀ i, i < 2000 →
        i ≠ (run_calls ( terminal_initialize t0) (calls ++ [last])).row * 80
          + (run_calls ( terminal_initialize t0) (calls ++ [last])).column →
        cell_char ((run_calls ( terminal_initialize t0) (calls ++ [last])).buffer i) ≠ 95)
    ∧ (∀ i, i < 2000 → cell_char (( terminal_initialize t0).buffer i) = 32) := by
  have h0 := no_glyph_only_at_cursor _ (initialize_no_glyph t0)
  have h1 := run_calls_cursor calls _ h0
    (fun c hm => hc c (List.mem_append_left _ hm))
  have h2 := terminal_call_cursor _ last h1
    (fun c hl => hc c (by rw [hl]; exact List.mem_append_right _ (List.mem_singleton_self _)))
  rw [run_calls_append, run_calls_single]
  refine ⟨h2.2 hlast, h2.1, ?_⟩
  intro i hi
  rw [(terminal_initialize_eq t0).2.2.2 i, if_pos hi, cell_char_blank]

/-- Witness for C14 (amended): the calls made by writing `hi` and one backspace. -/
theorem cursor_glyph_invariant_witness :
    cell_char ((run_calls ( terminal_initialize ⟨0, 0, 0, fun _ => 0⟩)
        ([TermCall.putchar 104, TermCall.putchar 105] ++ [TermCall.backspace])).buffer
        ((run_calls ( terminal_initialize ⟨0, 0, 0, fun _ => 0⟩)
            ([TermCall.putchar 104, TermCall.putchar 105] ++ [TermCall.backspace])).row * 80
          + (run_calls ( terminal_initialize ⟨0, 0, 0, fun _ => 0⟩)
            ([TermCall.putchar 104, TermCall.putchar 105] ++ [TermCall.backspace])).column))
      = 95 :=
  (cursor_glyph_invariant ⟨0, 0, 0, fun _ => 0⟩ [TermCall.putchar 104, TermCall.putchar 105]
    TermCall.backspace
    (by
      intro c hm
      simp only [List.cons_append, List.nil_append, List.mem_cons, TermCall.putchar.injEq,
        reduceCtorEq, List.mem_nil_iff, or_false] at hm
      rcases hm with h | h <;> subst h <;> decide)
    (by decide)).1

/-- Counterexample to C14 as stated: right after `terminal_initialize` returns, the
cell at `(terminal_row, terminal_column) = (0, 0)` holds a blank, not the cursor glyph. -/
theorem cursor_glyph_counterexample :
    ( terminal_initialize ⟨0, 0, 0, fun _ => 0⟩).row = 0
    ∧ ( terminal_initialize ⟨0, 0, 0, fun _ => 0⟩).column = 0
    ∧ cell_char (cell_at ( terminal_initialize ⟨0, 0, 0, fun _ => 0⟩) 0 0) = 32
    ∧ cell_char (cell_at ( terminal_initialize ⟨0, 0, 0, fun _ => 0⟩) 0 0) ≠ 95 := by
  obtain ⟨i1, i2, _, i4⟩ := terminal_initialize_eq ⟨0, 0, 0, fun _ => 0⟩
  have e : cell_char (cell_at ( terminal_initialize ⟨0, 0, 0, fun _ => 0⟩) 0 0) = 32 := by
    unfold cell_at
    rw [i4, if_pos (by decide), cell_char_blank]
  refine ⟨i1, i2, e, ?_⟩
  rw [e]
  decide

/-! ## Lemmas on reads within the line -/

theorem charAt_drop (s : List Int) (j : Nat) : charAt (s.drop j) 0 = charAt s j := by
  unfold charAt
  rw [List.getD_eq_getElem?_getD, List.getD_eq_getElem?_getD, List.getElem?_drop, Nat.add_zero]

theorem string_to_int_digits_stop (s : List Int) (index : Nat) (result : Int)
    (h : ¬ (48 ≤ charAt s 0 ∧ charAt s 0 ≤ 57)) :
    string_to_int_digits s index result = (result, index) := by
  cases s with
  | nil => rfl
  | cons c cs =>
    rw [charAt_cons_zero] at h
    rw [string_to_int_digits, if_neg h]

theorem skip_spaces_from_within (suf r1 r2 : List Int) (i : Nat) :
    skip_spaces_from (suf ++ 0 :: r1) i = skip_spaces_from (suf ++ 0 :: r2) i
    ∧ skip_spaces_from (suf ++ 0 :: r1) i ≤ i + suf.length := by
  induction suf generalizing i with
  | nil =>
    simp [skip_spaces_from]
  | cons c cs ih =>
    simp only [List.cons_append, skip_spaces_from, List.length_cons, List.append_eq]
    split
    · obtain ⟨h1, h2⟩ := ih (i + 1)
      exact ⟨h1, by omega⟩
    · exact ⟨rfl, by omega⟩

theorem string_to_int_digits_within (suf r1 r2 : List Int) (index : Nat) (result : Int) :
    string_to_int_digits (suf ++ 0 :: r1) index result
      = string_to_int_digits (suf ++ 0 :: r2) index result
    ∧ (string_to_int_digits (suf ++ 0 :: r1) index result).2 ≤ index + suf.length := by
  induction suf generalizing index result with
  | nil =>
    simp [string_to_int_digits]
  | cons c cs ih =>
    simp only [List.cons_append, string_to_int_digits, List.length_cons, List.append_eq]
    split
    · obtain ⟨h1, h2⟩ := ih (index + 1) (wrap32 (result * 10 + (c - 48)))
      exact ⟨h1, by omega⟩
    · exact ⟨rfl, by simp only; omega⟩

theorem charAt_within (line r1 r2 : List Int) (i : Nat) (hi : i ≤ line.length) :
    charAt (line ++ 0 :: r1) i = charAt (line ++ 0 :: r2) i
    ∧ (i = line.length → charAt (line ++ 0 :: r1) i = 0) := by
  by_cases h : i < line.length
  · unfold charAt
    rw [List.getD_append _ _ _ _ h, List.getD_append _ _ _ _ h]
    exact ⟨rfl, fun he => absurd he (by omega)⟩
  · have he : i = line.length := by omega
    subst he
    rw [charAt_append_length, charAt_append_length, charAt_cons_zero, charAt_cons_zero]
    exact ⟨rfl, fun _ => rfl⟩

theorem skip_spaces_within (line r1 r2 : List Int) (i : Nat) (hi : i ≤ line.length) :
    skip_spaces (line ++ 0 :: r1) i = skip_spaces (line ++ 0 :: r2) i
    ∧ skip_spaces (line ++ 0 :: r1) i ≤ line.length := by
  unfold skip_spaces
  rw [List.drop_append_of_le_length hi, List.drop_append_of_le_length hi]
  obtain ⟨h1, h2⟩ := skip_spaces_from_within (line.drop i) r1 r2 i
  refine ⟨h1, ?_⟩
  rw [List.length_drop] at h2
  omega

theorem string_to_int_within (line r1 r2 : List Int) (i : Nat) (hi : i ≤ line.length) :
    string_to_int (line ++ 0 :: r1) i = string_to_int (line ++ 0 :: r2) i
    ∧ (string_to_int (line ++ 0 :: r1) i).2 ≤ line.length := by
  obtain ⟨c1, c2⟩ := charAt_within line r1 r2 i hi
  unfold string_to_int
  simp only []
  rw [← c1]
  by_cases hneg : charAt (line ++ 0 :: r1) i = 45
  · have hlt : i + 1 ≤ line.length := by
      by_contra hc
      have := c2 (by omega)
      omega
    simp only [hneg, decide_True, if_true]
    rw [List.drop_append_of_le_length hlt, List.drop_append_of_le_length hlt]
    obtain ⟨h1, h2⟩ := string_to_int_digits_within (line.drop (i + 1)) r1 r2 (i + 1) 0
    rw [List.length_drop] at h2
    rw [h1]
    exact ⟨rfl, by rw [← h1]; omega⟩
  · simp only [hneg, decide_False, Bool.false_eq_true, if_false]
    rw [List.drop_append_of_le_length hi, List.drop_append_of_le_length hi]
    obtain ⟨h1, h2⟩ := string_to_int_digits_within (line.drop i) r1 r2 i 0
    rw [List.length_drop] at h2
    rw [h1]
    exact ⟨rfl, by rw [← h1]; omega⟩

/-- From index 5 on, `calculate_expression` does not depend on what follows a NUL of the
buffer: every read before the operator character stops at that NUL, and when the
operator character read is the NUL itself the invalid-operator text is written whatever
is read after it. -/
theorem calculate_expression_within_line (line r1 r2 : List Int) (h5 : 5 ≤ line.length) :
    calculate_expression (line ++ 0 :: r1) = calculate_expression (line ++ 0 :: r2) := by
  obtain ⟨s1, s2⟩ := skip_spaces_within line r1 r2 5 h5
  have hf : calc_first (line ++ 0 :: r1) = calc_first (line ++ 0 :: r2) := by
    unfold calc_first
    rw [← s1]
    exact (string_to_int_within line r1 r2 _ s2).1
  have hfb : (calc_first (line ++ 0 :: r1)).2 ≤ line.length := by
    unfold calc_first
    exact (string_to_int_within line r1 r2 _ s2).2
  have hi : calc_op_index (line ++ 0 :: r1) = calc_op_index (line ++ 0 :: r2) := by
    unfold calc_op_index
    rw [← hf]
    exact (skip_spaces_within line r1 r2 _ hfb).1
  have hib : calc_op_index (line ++ 0 :: r1) ≤ line.length := by
    unfold calc_op_index
    exact (skip_spaces_within line r1 r2 _ hfb).2
  obtain ⟨o1, o2⟩ := charAt_within line r1 r2 _ hib
  have ho : calc_op (line ++ 0 :: r1) = calc_op (line ++ 0 :: r2) := by
    unfold calc_op
    rw [← hi]
    exact o1
  unfold calculate_expression
  rw [← hf, ← ho]
  by_cases hend : calc_op_index (line ++ 0 :: r1) = line.length
  · have hz : calc_op (line ++ 0 :: r1) = 0 := o2 hend
    rw [hz]
    simp [calc_switch]
  · have hlt : calc_op_index (line ++ 0 :: r1) + 1 ≤ line.length := by omega
    have hs : calc_second (line ++ 0 :: r1) = calc_second (line ++ 0 :: r2) := by
      unfold calc_second
      rw [← hi]
      obtain ⟨k1, k2⟩ := skip_spaces_within line r1 r2 _ hlt
      rw [← k1]
      exact (string_to_int_within line r1 r2 _ k2).1
    rw [hs]

/-- C20: the text written by `calculate_expression` depends only on the line up to its
terminator: for any two input buffers that hold the same line beginning with `!calc`
(the lines `handle_input` passes to it), agree up to and including the first NUL and
differ arbitrarily after it, `calculate_expression` gives the same output, even though
it reads buffer positions past the terminator when the line ends before the operator
character.  For buffers of `char` values both are dispatched by `handle_input` to
`calculate_expression`, and `handle_input` gives the same output on both. -/
theorem calc_ignores_after_terminator (line r1 r2 : List Int)
    (h0 : ∀ c ∈ line, c ≠ 0) (hcalc : line.take 5 = chars "!calc") :
    cline (line ++ 0 :: r1) = line ∧ cline (line ++ 0 :: r2) = line
    ∧ calculate_expression (line ++ 0 :: r1) = calculate_expression (line ++ 0 :: r2)
    ∧ (CharRange (line ++ 0 :: r1) → CharRange (line ++ 0 :: r2) →
        handle_input (line ++ 0 :: r1) = calculate_expression (line ++ 0 :: r1)
        ∧ handle_input (line ++ 0 :: r2) = calculate_expression (line ++ 0 :: r2)
        ∧ handle_input (line ++ 0 :: r1) = handle_input (line ++ 0 :: r2)) := by
  have h5 : 5 ≤ line.length := by
    have hl := congrArg List.length hcalc
    have hc : (chars "!calc").length = 5 := by decide
    rw [List.length_take, hc] at hl
    omega
  have heq := calculate_expression_within_line line r1 r2 h5
  have hdisp : ∀ r : List Int, CharRange (line ++ 0 :: r) →
      handle_input (line ++ 0 :: r) = calculate_expression (line ++ 0 :: r) := by
    intro r hr
    obtain ⟨t1, t2, _, _⟩ := handle_input_tests (line ++ 0 :: r) hr
    have hline : cline (line ++ 0 :: r) = line := cline_append_nul line r h0
    have n1 : ¬ strcmp (line ++ 0 :: r) (lit "!ZenOS") = 0 := by
      intro hz
      have hz' := t1.mp hz
      rw [hline] at hz'
      rw [hz'] at hcalc
      revert hcalc
      decide
    have p2 : strncmp (line ++ 0 :: r) (lit "!calc") 5 = 0 := by
      apply t2.mpr
      rw [hline]
      exact hcalc
    have hb : handle_input_branch (line ++ 0 :: r) = Handler.calc := by
      unfold handle_input_branch
      rw [if_neg n1, if_pos p2]
    rw [handle_input, hb, handle_input_body]
  refine ⟨cline_append_nul line r1 h0, cline_append_nul line r2 h0, heq, ?_⟩
  intro hr1 hr2
  refine ⟨hdisp r1 hr1, hdisp r2 hr2, ?_⟩
  rw [hdisp r1 hr1, hdisp r2 hr2, heq]

/-- Witness for C20: on the line `!calc` the second operand is read past the terminator
(0 from one buffer, 7 from the other) and the output is the same. -/
theorem calc_ignores_after_terminator_witness :
    ((∀ c ∈ chars "!calc", c ≠ 0) ∧ (chars "!calc").take 5 = chars "!calc")
    ∧ calculate_expression (chars "!calc" ++ 0 :: [])
        = calculate_expression (chars "!calc" ++ 0 :: [55])
    ∧ (calc_second (chars "!calc" ++ 0 :: [])).1 = 0
    ∧ (calc_second (chars "!calc" ++ 0 :: [55])).1 = 7
    ∧ calculate_expression (chars "!calc" ++ 0 :: [55])
        = some ((chars "Invalid operator. Use + - * /\n").map TermCall.putchar) :=
  ⟨⟨by decide, by decide⟩,
    (calc_ignores_after_terminator (chars "!calc") [] [55] (by decide) (by decide)).2.2.1,
    by decide, by decide, by decide⟩

/-- C16 (evaluation at the failing input): the line `!calc -2147483648 / -1` begins with
`!calc`; the first operand parses (with wrap-around) to `INT_MIN`, the operator is `/`,
the divisor is `-1`, not zero, so the division is reached; its quotient `2^31` is not
a 32-bit `int`: the evaluator faults and writes none of its three messages. -/
theorem calc_quotient_overflow :
    (cline (lit "!calc -2147483648 / -1")).take 5 = chars "!calc"
    ∧ (calc_first (lit "!calc -2147483648 / -1")).1 = -2147483648
    ∧ calc_op (lit "!calc -2147483648 / -1") = 47
    ∧ (calc_second (lit "!calc -2147483648 / -1")).1 = -1
    ∧ calculate_expression (lit "!calc -2147483648 / -1") = none
    ∧ handle_input (lit "!calc -2147483648 / -1") = none := by
  refine ⟨by decide, by decide, by decide, by decide, by decide, by decide⟩

/-- C18 (evaluation at the failing input): for `INT_MIN` the negation `-value` wraps
back to `INT_MIN`, the digit loop does not run, and `int_to_string` produces the text
`-` alone, not `-2147483648`.  The value is reached by `!calc -2147483647 - 1`, which
writes `Result: -`. -/
theorem int_to_string_int_min :
    int_to_string (-2147483648) = lit "-"
    ∧ dec (-2147483648) = chars "-2147483648"
    ∧ int_to_string (-2147483648) ≠ dec (-2147483648) ++ [0]
    ∧ calculate_expression (lit "!calc -2147483647 - 1")
        = some ((chars "Result: -\n").map TermCall.putchar) := by
  have e1 : int_to_string (-2147483648) = lit "-" := by
    simp [int_to_string, int_to_string_digits, int_to_string_copy, lit, chars, wrap32, charAt]
  have e2 : dec (-2147483648) = chars "-2147483648" := by
    simp [dec, decNat, decDigits, chars]
  have e3 : calc_first (lit "!calc -2147483647 - 1") = (-2147483647, 17) := by decide
  have e4 : calc_op (lit "!calc -2147483647 - 1") = 45 := by decide
  have e5 : calc_second (lit "!calc -2147483647 - 1") = (1, 21) := by decide
  have e6 : wrap32 (-2147483647 - 1) = -2147483648 := by decide
  have e7 : terminal_writestring (lit "Result: ") ++ terminal_writestring (lit "-")
      ++ terminal_writestring (lit "\n") = (chars "Result: -\n").map TermCall.putchar := by
    decide
  refine ⟨e1, e2, ?_, ?_⟩
  · rw [e1, e2]
    decide
  · unfold calculate_expression
    rw [e3, e4, e5]
    simp only [calc_switch, calc_print]
    rw [e6, e1, ← e7]
    simp

/-- C19: an absent integer operand parses as 0 without any error: at every index of
every buffer where no decimal digit follows the optional `-`, `string_to_int` returns 0
and advances the index only past the `-` if one is present.  Hence `!calc + 4` writes
`Result: 4` and `!calc 3 +` writes `Result: 3`, each followed by a newline. -/
theorem string_to_int_absent (str : List Int) (index : Nat)
    (h : ¬ (48 ≤ charAt str (if charAt str index = 45 then index + 1 else index)
      ∧ charAt str (if charAt str index = 45 then index + 1 else index) ≤ 57)) :
    string_to_int str index = (0, if charAt str index = 45 then index + 1 else index)
    ∧ calculate_expression (lit "!calc + 4") = some ((chars "Result: 4\n").map TermCall.putchar)
    ∧ calculate_expression (lit "!calc 3 +") = some ((chars "Result: 3\n").map TermCall.putchar) := by
  refine ⟨?_, ?_, ?_⟩
  · unfold string_to_int
    by_cases hneg : charAt str index = 45
    · rw [if_pos hneg] at h
      simp only [hneg, decide_True, if_true]
      rw [string_to_int_digits_stop _ _ _ (by rw [charAt_drop]; exact h)]
      simp only [Prod.mk.injEq, and_true]
      decide
    · rw [if_neg hneg] at h
      simp only [hneg, decide_False, Bool.false_eq_true, if_false]
      rw [string_to_int_digits_stop _ _ _ (by rw [charAt_drop]; exact h)]
  · have e3 : calc_first (lit "!calc + 4") = (0, 6) := by decide
    have e4 : calc_op (lit "!calc + 4") = 43 := by decide
    have e5 : calc_second (lit "!calc + 4") = (4, 9) := by decide
    unfold calculate_expression
    rw [e3, e4, e5]
    simp only [calc_switch, if_true]
    have e6 : wrap32 (0 + 4) = 4 := by decide
    rw [e6, calc_print_dec 4 (by decide) (by decide)]
    simp [dec, decNat, decDigits, chars]
  · have e3 : calc_first (lit "!calc 3 +") = (3, 7) := by decide
    have e4 : calc_op (lit "!calc 3 +") = 43 := by decide
    have e5 : calc_second (lit "!calc 3 +") = (0, 9) := by decide
    unfold calculate_expression
    rw [e3, e4, e5]
    simp only [calc_switch, if_true]
    have e6 : wrap32 (3 + 0) = 3 := by decide
    rw [e6, calc_print_dec 3 (by decide) (by decide)]
    simp [dec, decNat, decDigits, chars]

/-- Witness for C19: in `!calc - 4` no digit follows the `-` at index 6. -/
theorem string_to_int_absent_witness :
    string_to_int (lit "!calc - 4") 6 = (0, 7) :=
  (string_to_int_absent (lit "!calc - 4") 6 (by decide)).1

end ZenOS
